import Mathlib

set_option linter.unusedVariables false
set_option linter.unusedSectionVars false

/-!
Verification of the `disjoint-hash-set` crate (`src/disjoint_hash_set.rs`).

The Rust source is shallowly embedded below.  The `HashMap<T, Id>` is modelled
as an association list `List (T × Nat)` (only `get`, `entry().or_insert_with`,
`contains_key`, `len` and `collect` are used by the source, none of which
depend on hashing or iteration order); `Vec<Node>` is a `List Node`; `Id` is a
`Nat`.  Fallible behaviour is made explicit with `Except Err`:

* `Err.fault` models a Rust panic (an out-of-bounds index in `get`/`get_mut`,
  or the `.unwrap()` in `split_inner` failing);
* `Err.spin` models exhaustion of the fuel supplied to the embedding of the
  `while` loop in `compress_path`.  The fuel passed by every operation is
  `(size + 1)^2`, which theorem `compress_path_fuel_ok` below proves
  sufficient whenever all stored indices are in bounds, so `Err.spin` never
  escapes on such states.
-/

/-- Translation of `struct Node { size: usize, parent: Id }`. -/
structure Node where
  size : Nat
  parent : Nat
deriving DecidableEq, Repr

/-- Translation of `Node::new(parent)`, i.e. `Self { size: 1, parent }`. -/
def Node.new (parent : Nat) : Node := { size := 1, parent := parent }

/-- Translation of `struct DisjointHashSet<T> { map: HashMap<T, Id>, data: Vec<Node> }`. -/
structure DisjointHashSet (T : Type) where
  map : List (T × Nat)
  data : List Node
deriving DecidableEq, Repr

/-- `HashMap::get`: lookup of a key in the association list model. -/
def mapGet {T : Type} [DecidableEq T] : List (T × Nat) → T → Option Nat
  | [], _ => none
  | (k, v) :: rest, key => if k = key then some v else mapGet rest key

/-- `HashMap` insertion (used by `entry().or_insert_with` on a missing key and
by `collect`, where a repeated key overwrites the earlier binding). -/
def mapInsert {T : Type} [DecidableEq T] : List (T × Nat) → T → Nat → List (T × Nat)
  | [], key, v => [(key, v)]
  | (k, v0) :: rest, key, v =>
    if k = key then (key, v) :: rest else (k, v0) :: mapInsert rest key v

/-- Abnormal outcomes of an operation of the embedded code. -/
inductive Err where
  /-- The Rust code panics: an index out of bounds or a failed `unwrap`. -/
  | fault
  /-- The fuel given to the `compress_path` loop ran out. -/
  | spin
deriving DecidableEq, Repr

namespace DisjointHashSet

variable {T : Type} [DecidableEq T]

/-- Translation of `DisjointHashSet::new`. -/
def new (T : Type) [DecidableEq T] : DisjointHashSet T := { map := [], data := [] }

/-- Translation of `DisjointHashSet::with_capacity`; the capacity is a
performance hint for `HashMap`/`Vec` with no observable effect, so the
resulting state equals `new`. -/
def with_capacity (T : Type) [DecidableEq T] (cap : Nat) : DisjointHashSet T := new T

/-- Translation of `with_values`: `collect` the enumerated values into the map
(`(a, b) ↦ (b, Id(a))`, later duplicates overwriting earlier bindings) and
build `(0..map.len())` singleton root nodes. -/
def with_values (set : List T) : DisjointHashSet T :=
  let map := set.enum.foldl (fun m p => mapInsert m p.2 p.1) []
  let data := (List.range map.length).map (fun i => Node.new i)
  { map := map, data := data }

/-- Translation of `size`, i.e. `self.data.len()`. -/
def size (s : DisjointHashSet T) : Nat := s.data.length

/-- Translation of `contains`, i.e. `self.map.contains_key(value)`. -/
def contains (s : DisjointHashSet T) (value : T) : Bool := (mapGet s.map value).isSome

/-- Translation of `get`, i.e. `self.data[id.0]`; panics when out of bounds. -/
def get (s : DisjointHashSet T) (id : Nat) : Except Err Node :=
  match s.data[id]? with
  | some node => .ok node
  | none => .error .fault

/-- Translation of a `self.get_mut(id)` access followed by a field update;
panics (like `get_mut`) when `id` is out of bounds. -/
def modify_node (s : DisjointHashSet T) (id : Nat) (f : Node → Node) :
    Except Err (DisjointHashSet T) :=
  match s.data[id]? with
  | some node => .ok { s with data := s.data.set id (f node) }
  | none => .error .fault

/-- Translation of `insert_inner`: resolve the value in the map, otherwise
push a fresh singleton root node and bind the value to its index. -/
def insert_inner (s : DisjointHashSet T) (value : T) : Nat × DisjointHashSet T :=
  match mapGet s.map value with
  | some id => (id, s)
  | none =>
    let new_id := s.data.length
    (new_id, { map := mapInsert s.map value new_id, data := s.data ++ [Node.new new_id] })

/-- Translation of `insert`: `self.insert_inner(value) != Id(self.size() - 1)`,
with `size()` read after `insert_inner` has run. -/
def insert (s : DisjointHashSet T) (value : T) : Bool × DisjointHashSet T :=
  let (id, s) := s.insert_inner value
  (id != s.size - 1, s)

/-- Fuel-indexed translation of the `while` loop of `compress_path`
(path halving): rewrite the current node's parent to its grandparent, then
advance to the old parent, until `parent == id`. -/
def compress_path_fuel : Nat → DisjointHashSet T → Nat → Except Err (Nat × DisjointHashSet T)
  | 0, _, _ => .error .spin
  | fuel + 1, s, id => do
    let node ← s.get id
    if node.parent = id then
      .ok (id, s)
    else do
      let pnode ← s.get node.parent
      let s ← s.modify_node id (fun n => { n with parent := pnode.parent })
      compress_path_fuel fuel s node.parent

/-- Fuel budget used for each run of the `compress_path` loop; proven
sufficient on in-bounds states by `compress_path_fuel_ok`. -/
def op_fuel (s : DisjointHashSet T) : Nat := (s.size + 1) * (s.size + 1)

/-- Translation of `compress_path` (the loop is run with fuel `op_fuel`). -/
def compress_path (s : DisjointHashSet T) (id : Nat) :
    Except Err (Nat × DisjointHashSet T) :=
  compress_path_fuel (op_fuel s) s id

/-- Translation of `find`: `map.get(value)?` then `compress_path`. -/
def find (s : DisjointHashSet T) (value : T) :
    Except Err (Option Nat × DisjointHashSet T) :=
  match mapGet s.map value with
  | none => .ok (none, s)
  | some id => do
    let (r, s) ← s.compress_path id
    .ok (some r, s)

/-- Translation of `find_or_insert`: `insert_inner` then `compress_path`. -/
def find_or_insert (s : DisjointHashSet T) (value : T) :
    Except Err (Nat × DisjointHashSet T) :=
  let (id, s) := s.insert_inner value
  s.compress_path id

/-- Translation of `connected`: `self.find(value) == self.find(other)`. -/
def connected (s : DisjointHashSet T) (value other : T) :
    Except Err (Bool × DisjointHashSet T) := do
  let (a, s) ← s.find value
  let (b, s) ← s.find other
  .ok (a == b, s)

/-- Translation of `union_inner` (arguments are assumed to be roots): compare
the two nodes, then attach one root under the other according to
`value.size < other.size` and add the sizes. -/
def union_inner (s : DisjointHashSet T) (value_id other_id : Nat) :
    Except Err (DisjointHashSet T) := do
  let value ← s.get value_id
  let other ← s.get other_id
  if value = other then
    .ok s
  else if value.size < other.size then do
    let s ← s.modify_node other_id (fun n => { n with parent := value.parent })
    s.modify_node value_id (fun n => { n with size := n.size + other.size })
  else do
    let s ← s.modify_node value_id (fun n => { n with parent := other.parent })
    s.modify_node other_id (fun n => { n with size := n.size + value.size })

/-- Translation of `union`: resolve both values with `find_or_insert`, then
`union_inner`. -/
def union (s : DisjointHashSet T) (value other : T) : Except Err (DisjointHashSet T) := do
  let (value, s) ← s.find_or_insert value
  let (other, s) ← s.find_or_insert other
  s.union_inner value other

/-- Translation of `union_sets`: re-resolve both identifiers with
`compress_path`, then `union_inner`. -/
def union_sets (s : DisjointHashSet T) (value other : Nat) :
    Except Err (DisjointHashSet T) := do
  let (value, s) ← s.compress_path value
  let (other, s) ← s.compress_path other
  s.union_inner value other

/-- Translation of the `for_each` fold inside `insert_set`: resolve the next
value, re-resolve the accumulator `k`, union them, and continue with the new
accumulator. -/
def insert_set_go : DisjointHashSet T → Nat → List T → Except Err (DisjointHashSet T)
  | s, _, [] => .ok s
  | s, k, v :: rest => do
    let (v, s) ← s.find_or_insert v
    let (k, s) ← s.compress_path k
    let s ← s.union_inner k v
    insert_set_go s k rest

/-- Translation of `insert_set`: empty input is a no-op, otherwise seed the
accumulator with the first value and fold. -/
def insert_set (s : DisjointHashSet T) (set : List T) : Except Err (DisjointHashSet T) :=
  match set with
  | [] => .ok s
  | k :: rest => do
    let (k, s) ← s.find_or_insert k
    insert_set_go s k rest

/-- Translation of `split_inner`: early return when the node's own `size` is
1; otherwise pick `new_parent` (when `id` is its own parent, the position of
the first node in `data` whose parent is `id`, unwrap-panicking when none
exists, with the iterator consumed up to and including that position),
reparent the remaining nodes whose parent equals `id`, and reset the node's
`size` to 1. -/
def split_inner (s : DisjointHashSet T) (value : T) :
    Except Err (Nat × DisjointHashSet T) := do
  let (id, s) := s.insert_inner value
  let value ← s.get id
  if value.size = 1 then
    .ok (id, s)
  else do
    let (new_parent, start) ←
      if id = value.parent then
        match s.data.findIdx? (fun v => v.parent == id) with
        | some pos => (Except.ok (pos, pos + 1) : Except Err (Nat × Nat))
        | none => .error .fault
      else
        (Except.ok (value.parent, 0) : Except Err (Nat × Nat))
    let data2 := s.data.take start ++ (s.data.drop start).map
        (fun v => if v.parent = id then { v with parent := new_parent } else v)
    let s := { s with data := data2 }
    let s ← s.modify_node id (fun n => { n with size := 1 })
    .ok (id, s)

/-- Translation of `split`: `split_inner`, then `self.get_mut(id).parent = id`. -/
def split (s : DisjointHashSet T) (value : T) : Except Err (DisjointHashSet T) := do
  let (id, s) ← s.split_inner value
  s.modify_node id (fun n => { n with parent := id })

/-- Translation of `split_into`: `split_inner`, resolve `into`, `union_inner`. -/
def split_into (s : DisjointHashSet T) (value into : T) :
    Except Err (DisjointHashSet T) := do
  let (id, s) ← s.split_inner value
  let (into, s) ← s.find_or_insert into
  s.union_inner id into

/-- Translation of `split_into_set`: `split_inner`, re-resolve the given
identifier, `union_inner`. -/
def split_into_set (s : DisjointHashSet T) (value : T) (into : Nat) :
    Except Err (DisjointHashSet T) := do
  let (id, s) ← s.split_inner value
  let (into, s) ← s.compress_path into
  s.union_inner id into

/-! ### Specification layer

Pure views of the state used to phrase the properties: the parent function of
the forest, the size field of a node, the in-bounds invariant, and the root
map of well-formed (fixed-point-reaching) states. -/

/-- Parent pointer of node `i` (out-of-range indices are given a self loop; the
code never reads them without first faulting in `get`). -/
def parentFun (s : DisjointHashSet T) : Nat → Nat := fun i =>
  match s.data[i]? with
  | some nd => nd.parent
  | none => i

/-- Size field of node `i` (0 when out of range). -/
def sizeFun (s : DisjointHashSet T) : Nat → Nat := fun i =>
  match s.data[i]? with
  | some nd => nd.size
  | none => 0

/-- Every identifier stored in the map and every parent field is a valid index
into `data`. -/
def InBounds (s : DisjointHashSet T) : Prop :=
  (∀ p ∈ s.map, p.2 < s.data.length) ∧ (∀ nd ∈ s.data, nd.parent < s.data.length)

instance (s : DisjointHashSet T) : Decidable (InBounds s) := by
  unfold InBounds; infer_instance

/-- Root of the tree containing `i`, computed by iterating the parent function
`data.length` times (enough to reach the fixed point on well-formed states). -/
def rootOf (s : DisjointHashSet T) (i : Nat) : Nat :=
  (parentFun s)^[s.data.length] i

/-- Well-formed forest: in bounds, and every node's parent chain reaches a
fixed point (a root) within `data.length` steps. -/
def WF (s : DisjointHashSet T) : Prop :=
  InBounds s ∧ ∀ i < s.data.length, parentFun s (rootOf s i) = rootOf s i

instance (s : DisjointHashSet T) : Decidable (WF s) := by
  unfold WF; infer_instance

/-- Root of the class of a value, if the value is present. -/
def optRoot (s : DisjointHashSet T) (v : T) : Option Nat :=
  (mapGet s.map v).map (rootOf s)

end DisjointHashSet

/-- States reachable from `new` (or `with_capacity`) by the public value-based
operations `insert`, `insert_set`, `union`, `find`, `find_or_insert`,
`connected`, `split` and `split_into` (an operation that aborts produces no
state, so only `.ok` outcomes generate successors). -/
inductive Reach {T : Type} [DecidableEq T] : DisjointHashSet T → Prop where
  | base : Reach (DisjointHashSet.new T)
  | base_capacity (cap : Nat) : Reach (DisjointHashSet.with_capacity T cap)
  | step_insert {s : DisjointHashSet T} (v : T) : Reach s → Reach (s.insert v).2
  | step_insert_set {s s' : DisjointHashSet T} (l : List T) :
      Reach s → s.insert_set l = .ok s' → Reach s'
  | step_union {s s' : DisjointHashSet T} (a b : T) :
      Reach s → s.union a b = .ok s' → Reach s'
  | step_find {s s' : DisjointHashSet T} (v : T) {r : Option Nat} :
      Reach s → s.find v = .ok (r, s') → Reach s'
  | step_find_or_insert {s s' : DisjointHashSet T} (v : T) {r : Nat} :
      Reach s → s.find_or_insert v = .ok (r, s') → Reach s'
  | step_connected {s s' : DisjointHashSet T} (a b : T) {r : Bool} :
      Reach s → s.connected a b = .ok (r, s') → Reach s'
  | step_split {s s' : DisjointHashSet T} (v : T) :
      Reach s → s.split v = .ok s' → Reach s'
  | step_split_into {s s' : DisjointHashSet T} (a b : T) :
      Reach s → s.split_into a b = .ok s' → Reach s'

/-- States reachable from `new` by `insert` and `union` calls only (the
universe of claim C7). -/
inductive ReachIU {T : Type} [DecidableEq T] : DisjointHashSet T → Prop where
  | base : ReachIU (DisjointHashSet.new T)
  | step_insert {s : DisjointHashSet T} (v : T) : ReachIU s → ReachIU (s.insert v).2
  | step_union {s s' : DisjointHashSet T} (a b : T) :
      ReachIU s → s.union a b = .ok s' → ReachIU s'

open DisjointHashSet

/-- Decidable equality of `Except` results, used to evaluate the embedded
operations on concrete inputs. -/
instance {e a : Type} [DecidableEq e] [DecidableEq a] : DecidableEq (Except e a) := fun x y =>
  match x, y with
  | .ok u, .ok v =>
    if h : u = v then .isTrue (by rw [h]) else .isFalse (by intro hc; cases hc; exact h rfl)
  | .error u, .error v =>
    if h : u = v then .isTrue (by rw [h]) else .isFalse (by intro hc; cases hc; exact h rfl)
  | .ok _, .error _ => .isFalse (by intro hc; cases hc)
  | .error _, .ok _ => .isFalse (by intro hc; cases hc)

/-! ### Concrete evaluations settling the claims about the split/insert bugs -/

/-- **C1** (code bug): after `insert_set([0,1])` the value `1` is the root of
the class `{0,1}` of size 2 (so `connected(0,1)` is true), yet after
`split(1)` the query `connected(0,1)` is still true: the scan in
`split_inner` consumes the first child (node 0) without reparenting it away
from `1`, contradicting `split`'s own documentation ("creating it's own
unique set") and the claim that `connected(a,b)` is false after `split(a)`. -/
theorem C1_split_root_bug :
    (((new Nat).insert_set [0, 1] >>= fun s => s.connected 0 1).map Prod.fst
      = .ok true) ∧
    (((new Nat).insert_set [0, 1]).map (fun s => (rootOf s 0, sizeFun s 1))
      = .ok (1, 2)) ∧
    (((new Nat).insert_set [0, 1] >>= fun s => s.split 1 >>= fun s =>
        s.connected 0 1).map Prod.fst = .ok true) := by
  decide

/-- **C2** (code bug): on the state with classes `{0,1}` (root 1) and `{2,3}`
(root 3, size 2), `split_into(0, 2)` leaves `connected(0,1)` true, while
`split(0)` followed by `union(0,2)` makes `connected(0,1)` false, so the two
are not equivalent: `split_inner` does not reset the parent of the detached
node, and `split_into` then feeds that non-root to `union_inner` (whose
documented precondition is that both arguments are roots), attaching `2`'s
class under `0`'s old parent instead of detaching `0`. -/
theorem C2_split_into_bug :
    (((new Nat).insert_set [0, 1] >>= fun s => s.insert_set [2, 3] >>= fun s =>
        s.split_into 0 2 >>= fun s => s.connected 0 1).map Prod.fst = .ok true) ∧
    (((new Nat).insert_set [0, 1] >>= fun s => s.insert_set [2, 3] >>= fun s =>
        s.split 0 >>= fun s => s.union 0 2 >>= fun s => s.connected 0 1).map
        Prod.fst = .ok false) := by
  decide

/-- **C3** (code bug): `insert` returns `insert_inner(value) != Id(size()-1)`,
which is `false` when a fresh value is inserted (its new identifier is always
the last one) and `true` when re-inserting an already present value other
than the most recently assigned one — the exact opposite of the documented
contract "true if newly added". -/
theorem C3_insert_bug :
    (((new Nat).insert 0).1 = false) ∧
    (((((new Nat).insert 0).2.insert 1).2.insert 0).1 = true) ∧
    (((((new Nat).insert 0).2.insert 1).2.insert 0).2
      = (((new Nat).insert 0).2.insert 1).2) := by
  decide

/-- **C4** (counterexample): starting from the three singletons `{0} {1} {2}`,
`union(1,2)` makes `2` the root of `{1,2}` with size 2, and `0` stays a root
with size 1.  The claim predicts that `union(0,1)` attaches the strictly
smaller root `0` under the larger root `2` (`parent(0) = 2`); instead the
code attaches the larger root under the smaller one: `parent(2) = 0`,
`parent(0) = 0`, and the surviving root `0` carries the summed size 3. -/
theorem C4_counterexample :
    (((with_values [0, 1, 2] : DisjointHashSet Nat).union 1 2 >>= fun s =>
        s.union 0 1).map
      (fun u => (parentFun u 0, parentFun u 2, sizeFun u 0, sizeFun u 2))
      = .ok (0, 0, 3, 2)) ∧
    ¬ (((with_values [0, 1, 2] : DisjointHashSet Nat).union 1 2 >>= fun s =>
        s.union 0 1).map (fun u => parentFun u 0) = .ok 2) := by
  decide

/-- **C5** (counterexample): on the empty structure neither `0` nor `1` is
present, yet `connected(0,1)` returns `true` (`find` yields `None` on both
sides and `None == None` holds), refuting the claim that absence of either
value makes `connected` return `false`. -/
theorem C5_counterexample :
    ((new Nat).connected 0 1).map Prod.fst = .ok true := by
  decide

/-- **C6** (code bug): `with_values([0,0])` collapses the duplicate value to
the single identifier `Id(1)` (the enumeration index of the *last*
occurrence), but only `map.len() = 1` nodes are created, so the stored
identifier is out of bounds and `find(0)` panics instead of succeeding; the
identifiers in use are also not consecutive from 0 (id 0 is bound to no
value). -/
theorem C6_with_values_dup_bug :
    ((with_values [0, 0] : DisjointHashSet Nat).find 0 = .error .fault) ∧
    (mapGet (with_values [0, 0] : DisjointHashSet Nat).map 0 = some 1) ∧
    ((with_values [0, 0] : DisjointHashSet Nat).data.length = 1) := by
  decide

/-! ### Basic lemmas about the state model -/

namespace DisjointHashSet

variable {T : Type} [DecidableEq T]

theorem mapGet_mapInsert_self (m : List (T × Nat)) (k : T) (v : Nat) :
    mapGet (mapInsert m k v) k = some v := by
  induction m with
  | nil => simp [mapInsert, mapGet]
  | cons p rest ih =>
    obtain ⟨k0, v0⟩ := p
    by_cases h : k0 = k
    · simp [mapInsert, mapGet, h]
    · simp [mapInsert, mapGet, h, ih]

theorem mapGet_mapInsert_ne (m : List (T × Nat)) {k k' : T} (v : Nat) (h : k' ≠ k) :
    mapGet (mapInsert m k v) k' = mapGet m k' := by
  have hkk : ¬ k = k' := fun hc => h hc.symm
  induction m with
  | nil => simp [mapInsert, mapGet, hkk]
  | cons p rest ih =>
    obtain ⟨k0, v0⟩ := p
    by_cases h0 : k0 = k
    · subst h0
      simp [mapInsert, mapGet, hkk]
    · simp [mapInsert, mapGet, h0, ih]

theorem mapGet_mem {m : List (T × Nat)} {k : T} {v : Nat} (h : mapGet m k = some v) :
    (k, v) ∈ m := by
  induction m with
  | nil => simp [mapGet] at h
  | cons p rest ih =>
    obtain ⟨k0, v0⟩ := p
    by_cases h0 : k0 = k
    · subst h0
      simp [mapGet] at h
      subst h
      exact List.mem_cons_self _ _
    · simp only [mapGet, if_neg h0] at h
      exact List.mem_cons_of_mem _ (ih h)

theorem mem_mapInsert {m : List (T × Nat)} {k : T} {v : Nat} {p : T × Nat}
    (h : p ∈ mapInsert m k v) : p = (k, v) ∨ p ∈ m := by
  induction m with
  | nil => simpa [mapInsert] using h
  | cons q rest ih =>
    obtain ⟨k0, v0⟩ := q
    by_cases h0 : k0 = k
    · simp only [mapInsert, if_pos h0] at h
      rcases List.mem_cons.1 h with h1 | h1
      · exact Or.inl h1
      · exact Or.inr (List.mem_cons_of_mem _ h1)
    · simp only [mapInsert, if_neg h0] at h
      rcases List.mem_cons.1 h with h1 | h1
      · exact Or.inr (by simp [h1])
      · rcases ih h1 with h2 | h2
        · exact Or.inl h2
        · exact Or.inr (List.mem_cons_of_mem _ h2)

theorem get_of_lt {s : DisjointHashSet T} {id : Nat} (h : id < s.data.length) :
    s.get id = .ok ⟨sizeFun s id, parentFun s id⟩ := by
  unfold get sizeFun parentFun
  rcases List.getElem?_eq_some.2 ⟨h, rfl⟩ with h'
  rw [h']

theorem get_of_ge {s : DisjointHashSet T} {id : Nat} (h : s.data.length ≤ id) :
    s.get id = .error .fault := by
  unfold get
  rw [List.getElem?_eq_none h]

theorem get_ok_lt {s : DisjointHashSet T} {id : Nat} {nd : Node}
    (h : s.get id = .ok nd) : id < s.data.length := by
  by_contra hge
  rw [get_of_ge (Nat.le_of_not_lt hge)] at h
  cases h

theorem get_ok_elim {s : DisjointHashSet T} {id : Nat} {nd : Node}
    (h : s.get id = .ok nd) :
    id < s.data.length ∧ nd.size = sizeFun s id ∧ nd.parent = parentFun s id := by
  have hlt := get_ok_lt h
  rw [get_of_lt hlt] at h
  cases h
  exact ⟨hlt, rfl, rfl⟩

theorem modify_node_of_lt {s : DisjointHashSet T} {id : Nat} (h : id < s.data.length)
    (f : Node → Node) :
    s.modify_node id f =
      .ok { s with data := s.data.set id (f ⟨sizeFun s id, parentFun s id⟩) } := by
  unfold modify_node sizeFun parentFun
  rcases List.getElem?_eq_some.2 ⟨h, rfl⟩ with h'
  rw [h']

theorem parentFun_set {s : DisjointHashSet T} {id : Nat} (h : id < s.data.length)
    (nd : Node) (j : Nat) :
    parentFun { s with data := s.data.set id nd } j =
      if j = id then nd.parent else parentFun s j := by
  unfold parentFun
  simp only [List.getElem?_set]
  by_cases hj : j = id
  · subst hj
    simp [h]
  · have hij : ¬ id = j := fun hc => hj hc.symm
    rw [if_neg hij, if_neg hj]

theorem sizeFun_set {s : DisjointHashSet T} {id : Nat} (h : id < s.data.length)
    (nd : Node) (j : Nat) :
    sizeFun { s with data := s.data.set id nd } j =
      if j = id then nd.size else sizeFun s j := by
  unfold sizeFun
  simp only [List.getElem?_set]
  by_cases hj : j = id
  · subst hj
    simp [h]
  · have hij : ¬ id = j := fun hc => hj hc.symm
    rw [if_neg hij, if_neg hj]

theorem InBounds.map_lt {s : DisjointHashSet T} (hs : InBounds s) {v : T} {id : Nat}
    (h : mapGet s.map v = some id) : id < s.data.length :=
  hs.1 _ (mapGet_mem h)

theorem InBounds.parent_lt {s : DisjointHashSet T} (hs : InBounds s) {id : Nat}
    (h : id < s.data.length) : parentFun s id < s.data.length := by
  unfold parentFun
  rcases List.getElem?_eq_some.2 ⟨h, rfl⟩ with h'
  rw [h']
  exact hs.2 _ (List.getElem_mem h)

theorem InBounds_set_parent {s : DisjointHashSet T} (hs : InBounds s) {id p : Nat}
    (hid : id < s.data.length) (hp : p < s.data.length) (sz : Nat) :
    InBounds { s with data := s.data.set id ⟨sz, p⟩ } := by
  constructor
  · intro q hq
    simpa using hs.1 q hq
  · intro nd hnd
    rcases List.mem_or_eq_of_mem_set hnd with h1 | h1
    · simpa using hs.2 nd h1
    · subst h1
      simpa using hp

end DisjointHashSet

namespace DisjointHashSet

variable {T : Type} [DecidableEq T]

theorem ok_bind {e a b : Type} (x : a) (f : a → Except e b) :
    (Except.ok x >>= f) = f x := rfl

theorem error_bind {e a b : Type} (err : e) (f : a → Except e b) :
    ((Except.error err : Except e a) >>= f) = Except.error err := rfl

theorem insert_inner_present {s : DisjointHashSet T} {v : T} {id : Nat}
    (h : mapGet s.map v = some id) : s.insert_inner v = (id, s) := by
  unfold insert_inner
  rw [h]

theorem insert_inner_absent {s : DisjointHashSet T} {v : T}
    (h : mapGet s.map v = none) :
    s.insert_inner v = (s.data.length,
      { map := mapInsert s.map v s.data.length,
        data := s.data ++ [Node.new s.data.length] }) := by
  unfold insert_inner
  rw [h]

theorem parentFun_push (s : DisjointHashSet T) (m : List (T × Nat)) (j : Nat) :
    parentFun { map := m, data := s.data ++ [Node.new s.data.length] } j =
      if j = s.data.length then s.data.length else parentFun s j := by
  unfold parentFun
  by_cases hj : j = s.data.length
  · subst hj
    simp [List.getElem?_concat_length, Node.new]
  · rw [if_neg hj]
    rcases Nat.lt_or_ge j s.data.length with hlt | hge
    · simp [List.getElem?_append, hlt]
    · have hge' : s.data.length < j := Nat.lt_of_le_of_ne hge (fun hc => hj hc.symm)
      have h1 : (s.data ++ [Node.new s.data.length])[j]? = none := by
        apply List.getElem?_eq_none
        simpa using hge'
      have h2 : s.data[j]? = none := List.getElem?_eq_none hge
      rw [h1, h2]

theorem sizeFun_push (s : DisjointHashSet T) (m : List (T × Nat)) (j : Nat) :
    sizeFun { map := m, data := s.data ++ [Node.new s.data.length] } j =
      if j = s.data.length then 1 else sizeFun s j := by
  unfold sizeFun
  by_cases hj : j = s.data.length
  · subst hj
    simp [List.getElem?_concat_length, Node.new]
  · rw [if_neg hj]
    rcases Nat.lt_or_ge j s.data.length with hlt | hge
    · simp [List.getElem?_append, hlt]
    · have hge' : s.data.length < j := Nat.lt_of_le_of_ne hge (fun hc => hj hc.symm)
      have h1 : (s.data ++ [Node.new s.data.length])[j]? = none := by
        apply List.getElem?_eq_none
        simpa using hge'
      have h2 : s.data[j]? = none := List.getElem?_eq_none hge
      rw [h1, h2]

theorem InBounds_push {s : DisjointHashSet T} (hs : InBounds s) (v : T) :
    InBounds { map := mapInsert s.map v s.data.length,
               data := s.data ++ [Node.new s.data.length] } := by
  constructor
  · intro p hp
    rcases mem_mapInsert hp with h1 | h1
    · subst h1
      simp
    · have := hs.1 p h1
      simp only [List.length_append, List.length_singleton]
      omega
  · intro nd hnd
    rcases List.mem_append.1 hnd with h1 | h1
    · have := hs.2 nd h1
      simp only [List.length_append, List.length_singleton]
      omega
    · rcases List.mem_singleton.1 h1 with rfl
      simp [Node.new]

theorem compress_path_fuel_post (fuel : Nat) :
    ∀ (s : DisjointHashSet T) (id : Nat), InBounds s → id < s.data.length →
      compress_path_fuel fuel s id ≠ .error .fault ∧
      ∀ r s', compress_path_fuel fuel s id = .ok (r, s') →
        r < s.data.length ∧ parentFun s' r = r ∧ InBounds s' ∧
        s'.data.length = s.data.length ∧ s'.map = s.map ∧ sizeFun s' = sizeFun s := by
  induction fuel with
  | zero =>
    intro s id hs hid
    refine ⟨fun hc => ?_, fun r s' hc => ?_⟩ <;> simp [compress_path_fuel] at hc
  | succ fuel ih =>
    intro s id hs hid
    have hgid := get_of_lt hid
    by_cases hroot : parentFun s id = id
    · have hstep : compress_path_fuel (fuel + 1) s id = .ok (id, s) := by
        simp only [compress_path_fuel, hgid, ok_bind]
        simp [hroot]
      refine ⟨?_, fun r s' hr => ?_⟩
      · rw [hstep]
        intro hc
        cases hc
      · rw [hstep] at hr
        cases hr
        exact ⟨hid, hroot, hs, rfl, rfl, rfl⟩
    · have hp : parentFun s id < s.data.length := hs.parent_lt hid
      have hgp := get_of_lt hp
      have hp2 : parentFun s (parentFun s id) < s.data.length := hs.parent_lt hp
      have hmod := modify_node_of_lt hid
        (fun n => { n with parent := (⟨sizeFun s (parentFun s id),
          parentFun s (parentFun s id)⟩ : Node).parent })
      have hstep : compress_path_fuel (fuel + 1) s id =
          compress_path_fuel fuel
            { s with data :=
                s.data.set id (Node.mk (sizeFun s id) (parentFun s (parentFun s id))) }
            (parentFun s id) := by
        simp only [compress_path_fuel, hgid, ok_bind]
        rw [if_neg hroot]
        simp only [hgp, ok_bind, hmod, ok_bind]
      set s2 : DisjointHashSet T :=
        { s with data :=
            s.data.set id (Node.mk (sizeFun s id) (parentFun s (parentFun s id))) }
        with hs2def
      have hlen2 : s2.data.length = s.data.length := by
        simp [hs2def, List.length_set]
      have hs2 : InBounds s2 := InBounds_set_parent hs hid hp2 _
      have hid2 : parentFun s id < s2.data.length := by rw [hlen2]; exact hp
      have hsize2 : sizeFun s2 = sizeFun s := by
        funext j
        rw [hs2def]
        rw [sizeFun_set hid]
        by_cases hj : j = id
        · subst hj
          simp
        · rw [if_neg hj]
      obtain ⟨hnf, hpost⟩ := ih s2 (parentFun s id) hs2 hid2
      constructor
      · rw [hstep]
        exact hnf
      · intro r s' hr
        rw [hstep] at hr
        obtain ⟨h1, h2, h3, h4, h5, h6⟩ := hpost r s' hr
        refine ⟨by rw [← hlen2]; exact h1, h2, h3, by rw [h4, hlen2],
          by rw [h5], by rw [h6, hsize2]⟩

end DisjointHashSet

/-! ### Termination of path halving

Pure facts about iterating an arbitrary function `f : Nat → Nat` under the
single-point rewrite `update f id (f (f id))` performed by one iteration of
the `compress_path` loop.  The measure
`minimalPeriod * (n + 1) + preperiod` strictly decreases with each loop
iteration, which bounds the number of iterations by `(n + 1)^2` even on
states whose parent graph contains cycles (as produced by `split_into`). -/

theorem iterate_update_orbit (f : Nat → Nat) (a v w : Nat)
    (h : ∀ k, f^[k] w ≠ a) : ∀ k, (Function.update f a v)^[k] w = f^[k] w := by
  intro k
  induction k with
  | zero => rfl
  | succ k ih =>
    rw [Function.iterate_succ_apply', Function.iterate_succ_apply', ih,
      Function.update_noteq (h k)]

theorem orbit_ne_of_not_periodic (f : Nat → Nat) (id : Nat)
    (h : id ∉ Function.periodicPts f) (j k : Nat) : f^[k] (f^[j+1] id) ≠ id := by
  intro hk
  apply h
  apply Function.mk_mem_periodicPts (Nat.succ_pos (k + j))
  show f^[k + j + 1] id = id
  calc f^[k + j + 1] id = f^[k] (f^[j+1] id) := by
        rw [← Function.iterate_add_apply, ← Nat.add_assoc]
    _ = id := hk

theorem mem_periodicPts_iterate {f : Nat → Nat} {y : Nat}
    (h : y ∈ Function.periodicPts f) (m : Nat) :
    f^[m] y ∈ Function.periodicPts f := by
  obtain ⟨L, hL, hP⟩ := h
  exact Function.mk_mem_periodicPts hL (hP.apply_iterate m)

/-- One iteration of path halving strictly decreases the measure
`minimalPeriod * (n + 1) + preperiod` of the walk: from the configuration
`(f, id)` with `f id ≠ id`, the loop moves to `(update f id (f (f id)), f id)`
and the new configuration admits a preperiod witness with strictly smaller
measure. -/
theorem halving_measure_decrease (f : Nat → Nat) (n : Nat) (id t : Nat)
    (hid : id < n) (hne : f id ≠ id)
    (hmem : f^[t] id ∈ Function.periodicPts f)
    (hleast : ∀ j < t, f^[j] id ∉ Function.periodicPts f) :
    ∃ t2,
      (Function.update f id (f (f id)))^[t2] (f id) ∈
        Function.periodicPts (Function.update f id (f (f id))) ∧
      (∀ j < t2, (Function.update f id (f (f id)))^[j] (f id) ∉
        Function.periodicPts (Function.update f id (f (f id)))) ∧
      Function.minimalPeriod (Function.update f id (f (f id)))
          ((Function.update f id (f (f id)))^[t2] (f id)) * (n + 1) + t2 <
        Function.minimalPeriod f (f^[t] id) * (n + 1) + t := by
  set g : Nat → Nat := Function.update f id (f (f id)) with hg
  match t, hmem, hleast with
  | t' + 1, hmem, hleast =>
    -- the current node is not yet periodic: the walk just advances
    have h0 : id ∉ Function.periodicPts f := hleast 0 (Nat.succ_pos t')
    have horb : ∀ j k : Nat, f^[k] (f^[j+1] id) ≠ id :=
      fun j k => orbit_ne_of_not_periodic f id h0 j k
    have htrans : ∀ k, g^[k] (f id) = f^[k] (f id) := by
      intro k
      apply iterate_update_orbit
      intro k'
      have := horb 0 k'
      simpa using this
    have hshift : ∀ k, g^[k] (f id) = f^[k+1] id := by
      intro k
      rw [htrans k, ← Function.iterate_succ_apply]
    refine ⟨t', ?_, ?_, ?_⟩
    · rw [hshift]
      -- the periodic point of the f-walk is still periodic for g
      have hyf : f^[t'+1] id ∈ Function.periodicPts f := hmem
      obtain ⟨L, hL, hP⟩ := hyf
      have hgy : ∀ m, g^[m] (f^[t'+1] id) = f^[m] (f^[t'+1] id) := by
        intro m
        apply iterate_update_orbit
        intro k
        exact horb t' k
      apply Function.mk_mem_periodicPts hL
      show g^[L] (f^[t'+1] id) = f^[t'+1] id
      rw [hgy L]
      exact hP
    · intro j hj
      rw [hshift]
      intro hper
      have hz : ∀ k, f^[k] (f^[j+1] id) ≠ id := fun k => horb j k
      obtain ⟨m, hm, hPm⟩ := hper
      have : f^[m] (f^[j+1] id) = f^[j+1] id := by
        have := iterate_update_orbit f id (f (f id)) (f^[j+1] id) hz m
        rw [← hg] at this
        rw [← this]
        exact hPm
      exact hleast (j+1) (by omega)
        (Function.mk_mem_periodicPts hm (by show f^[m] (f^[j+1] id) = f^[j+1] id; exact this))
    · -- same minimal period, strictly smaller preperiod
      have hy : g^[t'] (f id) = f^[t'+1] id := hshift t'
      have hgy : ∀ m, g^[m] (f^[t'+1] id) = f^[m] (f^[t'+1] id) := by
        intro m
        apply iterate_update_orbit
        intro k
        exact horb t' k
      have hyg : f^[t'+1] id ∈ Function.periodicPts g := by
        obtain ⟨L, hL, hP⟩ := hmem
        apply Function.mk_mem_periodicPts hL
        show g^[L] (f^[t'+1] id) = f^[t'+1] id
        rw [hgy L]
        exact hP
      have heq : Function.minimalPeriod g (f^[t'+1] id) =
          Function.minimalPeriod f (f^[t'+1] id) := by
        apply Nat.le_antisymm
        · have hP := Function.isPeriodicPt_minimalPeriod f (f^[t'+1] id)
          have hpos := Function.minimalPeriod_pos_of_mem_periodicPts hmem
          apply Function.IsPeriodicPt.minimalPeriod_le hpos
          show g^[Function.minimalPeriod f (f^[t'+1] id)] (f^[t'+1] id) = f^[t'+1] id
          rw [hgy]
          exact hP
        · have hP := Function.isPeriodicPt_minimalPeriod g (f^[t'+1] id)
          have hpos := Function.minimalPeriod_pos_of_mem_periodicPts hyg
          apply Function.IsPeriodicPt.minimalPeriod_le hpos
          show f^[Function.minimalPeriod g (f^[t'+1] id)] (f^[t'+1] id) = f^[t'+1] id
          rw [← hgy]
          exact hP
      rw [hy, heq]
      omega
  | 0, hmem, _ =>
    -- the current node is on a cycle of minimal period L ≥ 2
    simp only [Function.iterate_zero_apply] at hmem
    set L : Nat := Function.minimalPeriod f id with hL
    have hLpos : 0 < L := Function.minimalPeriod_pos_of_mem_periodicPts hmem
    have hL1 : L ≠ 1 := by
      intro hc
      exact hne (Function.minimalPeriod_eq_one_iff_isFixedPt.1 (hL ▸ hc))
    have hL2 : 2 ≤ L := by omega
    have hcyc : f^[L] id = id := hL ▸ Function.iterate_minimalPeriod
    have hinj : ∀ i < L, ∀ j < L, f^[i] id = f^[j] id → i = j := by
      intro i hi j hj hij
      exact (Function.iterate_eq_iterate_iff_of_lt_minimalPeriod
        (hL ▸ hi) (hL ▸ hj)).1 hij
    rcases Nat.lt_or_ge L 3 with hL3 | hL3
    · -- L = 2: the rewrite creates a self loop at id
      have hLeq : L = 2 := by omega
      have hff : f (f id) = id := by
        have : f^[2] id = id := by rw [← hLeq]; exact hcyc
        simpa [Function.iterate_succ_apply, Function.iterate_one] using this
      have hgid : g id = id := by rw [hg, hff]; exact Function.update_same _ _ _
      have hgfid : g (f id) = id := by
        rw [hg, Function.update_noteq hne, hff]
      have hclaim : ∀ k, g^[k+1] (f id) = id := by
        intro k
        induction k with
        | zero => simpa using hgfid
        | succ k ih =>
          rw [Function.iterate_succ_apply']
          rw [ih]
          exact hgid
      refine ⟨1, ?_, ?_, ?_⟩
      · have : g^[1] (f id) = id := by simpa using hgfid
        rw [this]
        exact Function.mk_mem_periodicPts Nat.one_pos
          ((show Function.IsFixedPt g id from hgid).isPeriodicPt 1)
      · intro j hj
        have hj0 : j = 0 := by omega
        subst hj0
        simp only [Function.iterate_zero_apply]
        intro hper
        obtain ⟨m, hm, hPm⟩ := hper
        have h1 : g^[m] (f id) = f id := hPm
        have h2 : g^[m] (f id) = id := by
          have hm1 : m = (m - 1) + 1 := by omega
          rw [hm1]
          exact hclaim (m - 1)
        exact hne (by rw [← h1, h2])
      · have hfix : g^[1] (f id) = id := by simpa using hgfid
        rw [hfix]
        have h1 : Function.minimalPeriod g id = 1 :=
          Function.minimalPeriod_eq_one_iff_isFixedPt.2 hgid
        simp only [Function.iterate_zero_apply]
        rw [h1, ← hL, hLeq]
        omega
    · -- L ≥ 3: the cycle shortens by one
      have hne2 : f^[2] id ≠ id := by
        intro hc
        have := hinj 2 (by omega) 0 (by omega) (by simpa using hc)
        omega
      have hgid : g id = f^[2] id := by
        rw [hg]
        have := Function.update_same id (f (f id)) f
        rw [this]
        rw [Function.iterate_succ_apply, Function.iterate_one]
      have hgat : ∀ j, 0 < j → j < L → g (f^[j] id) = f^[j+1] id := by
        intro j hj0 hjL
        have hne' : f^[j] id ≠ id := by
          intro hc
          have := hinj j hjL 0 (by omega) (by simpa using hc)
          omega
        rw [hg, Function.update_noteq hne']
        exact (Function.iterate_succ_apply' f j id).symm
      have claimA : ∀ k, k + 2 < L → g^[k] (f^[2] id) = f^[k+2] id := by
        intro k
        induction k with
        | zero => intro _; rfl
        | succ k ih =>
          intro hk
          rw [Function.iterate_succ_apply', ih (by omega)]
          have := hgat (k+2) (by omega) (by omega)
          rw [this]
      have claimB : g^[L-2] (f^[2] id) = id := by
        have hsplit : L - 2 = (L - 3) + 1 := by omega
        rw [hsplit, Function.iterate_succ_apply']
        rw [claimA (L-3) (by omega)]
        have h1 : L - 3 + 2 = L - 1 := by omega
        rw [h1]
        have := hgat (L-1) (by omega) (by omega)
        rw [this]
        have h2 : L - 1 + 1 = L := by omega
        rw [h2, hcyc]
      have claimC : g^[L-1] (f^[2] id) = f^[2] id := by
        have hsplit : L - 1 = (L - 2) + 1 := by omega
        rw [hsplit, Function.iterate_succ_apply', claimB, hgid]
      have hmemg : f^[2] id ∈ Function.periodicPts g :=
        Function.mk_mem_periodicPts (by omega)
          (show Function.IsPeriodicPt g (L-1) (f^[2] id) from claimC)
      have claimS : ∀ k, (∃ j, 2 ≤ j ∧ j < L ∧ g^[k] (f^[2] id) = f^[j] id) ∨
          g^[k] (f^[2] id) = id := by
        intro k
        induction k with
        | zero => exact Or.inl ⟨2, by omega, by omega, rfl⟩
        | succ k ih =>
          rw [Function.iterate_succ_apply']
          rcases ih with ⟨j, hj2, hjL, hjeq⟩ | hid'
          · rw [hjeq]
            rcases Nat.lt_or_ge (j+1) L with hjL1 | hjL1
            · exact Or.inl ⟨j+1, by omega, hjL1,
                by rw [hgat j (by omega) hjL]⟩
            · have hjeq' : j + 1 = L := by omega
              right
              rw [hgat j (by omega) hjL, hjeq', hcyc]
          · rw [hid', hgid]
            exact Or.inl ⟨2, by omega, by omega, rfl⟩
      have hD : Function.minimalPeriod g (f^[2] id) = L - 1 := by
        have hpos := Function.minimalPeriod_pos_of_mem_periodicPts hmemg
        have hle : Function.minimalPeriod g (f^[2] id) ≤ L - 1 :=
          Function.IsPeriodicPt.minimalPeriod_le (by omega)
            (show Function.IsPeriodicPt g (L-1) (f^[2] id) from claimC)
        rcases Nat.lt_or_ge (Function.minimalPeriod g (f^[2] id)) (L-1) with hlt | hge
        · exfalso
          set m : Nat := Function.minimalPeriod g (f^[2] id) with hm
          have hPm : g^[m] (f^[2] id) = f^[2] id :=
            Function.isPeriodicPt_minimalPeriod g (f^[2] id)
          rcases Nat.lt_or_ge (m+2) L with hm2 | hm2
          · have := claimA m hm2
            rw [this] at hPm
            have := hinj (m+2) (by omega) 2 (by omega) hPm
            omega
          · have hmeq : m = L - 2 := by omega
            rw [hmeq, claimB] at hPm
            have := hinj 0 (by omega) 2 (by omega) (by simpa using hPm)
            omega
        · omega
      have hstart : g (f id) = f^[2] id := by
        have := hgat 1 (by omega) (by omega)
        simpa using this
      refine ⟨1, ?_, ?_, ?_⟩
      · have : g^[1] (f id) = f^[2] id := by simpa using hstart
        rw [this]
        exact hmemg
      · intro j hj
        have hj0 : j = 0 := by omega
        subst hj0
        simp only [Function.iterate_zero_apply]
        intro hper
        obtain ⟨m, hm, hPm⟩ := hper
        have h1 : g^[m] (f id) = f id := hPm
        have hm1 : m = (m - 1) + 1 := by omega
        have h2 : g^[m] (f id) = g^[m-1] (f^[2] id) := by
          conv_lhs => rw [hm1]
          rw [Function.iterate_succ_apply, hstart]
        rcases claimS (m-1) with ⟨j, hj2, hjL, hjeq⟩ | hid'
        · rw [h2, hjeq] at h1
          have := hinj j hjL 1 (by omega) h1
          omega
        · rw [h2, hid'] at h1
          exact hne h1.symm
      · have : g^[1] (f id) = f^[2] id := by simpa using hstart
        simp only [Function.iterate_zero_apply]
        rw [this, hD, ← hL]
        have hn1 : 0 < n + 1 := Nat.succ_pos n
        calc (L - 1) * (n + 1) + 1 < (L - 1) * (n + 1) + (n + 1) := by omega
          _ = L * (n + 1) := by
              have : L - 1 + 1 = L := by omega
              rw [← Nat.succ_mul, Nat.succ_eq_add_one, this]
          _ ≤ L * (n + 1) + 0 := by omega

namespace DisjointHashSet

variable {T : Type} [DecidableEq T]

theorem parentFun_halving {s : DisjointHashSet T} {id : Nat} (hid : id < s.data.length) :
    parentFun
        { s with
          data := s.data.set id (Node.mk (sizeFun s id) (parentFun s (parentFun s id))) } =
      Function.update (parentFun s) id (parentFun s (parentFun s id)) := by
  funext j
  rw [parentFun_set hid]
  rw [Function.update_apply]

/-- With fuel exceeding the measure `minimalPeriod * (n+1) + preperiod` of the
starting node, the `compress_path` loop reaches its fixed point. -/
theorem compress_path_fuel_ok_aux (fuel : Nat) :
    ∀ (s : DisjointHashSet T) (id t : Nat), InBounds s → id < s.data.length →
      (parentFun s)^[t] id ∈ Function.periodicPts (parentFun s) →
      (∀ j < t, (parentFun s)^[j] id ∉ Function.periodicPts (parentFun s)) →
      Function.minimalPeriod (parentFun s) ((parentFun s)^[t] id) *
          (s.data.length + 1) + t < fuel →
      ∃ r s', compress_path_fuel fuel s id = .ok (r, s') := by
  induction fuel with
  | zero =>
    intro s id t _ _ _ _ h
    omega
  | succ fuel ih =>
    intro s id t hs hid hmem hleast hmu
    have hgid := get_of_lt hid
    by_cases hroot : parentFun s id = id
    · refine ⟨id, s, ?_⟩
      simp only [compress_path_fuel, hgid, ok_bind]
      simp [hroot]
    · have hp : parentFun s id < s.data.length := hs.parent_lt hid
      have hgp := get_of_lt hp
      have hp2 : parentFun s (parentFun s id) < s.data.length := hs.parent_lt hp
      have hmod := modify_node_of_lt hid
        (fun n => { n with parent := (Node.mk (sizeFun s (parentFun s id))
          (parentFun s (parentFun s id))).parent })
      have hstep : compress_path_fuel (fuel + 1) s id =
          compress_path_fuel fuel
            { s with data :=
                s.data.set id (Node.mk (sizeFun s id) (parentFun s (parentFun s id))) }
            (parentFun s id) := by
        simp only [compress_path_fuel, hgid, ok_bind]
        rw [if_neg hroot]
        simp only [hgp, ok_bind, hmod, ok_bind]
      set s2 : DisjointHashSet T :=
        { s with data :=
            s.data.set id (Node.mk (sizeFun s id) (parentFun s (parentFun s id))) }
        with hs2def
      have hlen2 : s2.data.length = s.data.length := by
        simp [hs2def, List.length_set]
      have hs2b : InBounds s2 := InBounds_set_parent hs hid hp2 _
      have hpar2 : parentFun s2 =
          Function.update (parentFun s) id (parentFun s (parentFun s id)) :=
        parentFun_halving hid
      obtain ⟨t2, hmem2, hleast2, hdec⟩ := halving_measure_decrease (parentFun s)
        s.data.length id t hid hroot hmem hleast
      rw [← hpar2] at hmem2 hleast2 hdec
      obtain ⟨r, s', hok⟩ := ih s2 (parentFun s id) t2 hs2b (by rw [hlen2]; exact hp)
        hmem2 hleast2 (by rw [hlen2]; omega)
      exact ⟨r, s', by rw [hstep]; exact hok⟩

/-- On an in-bounds state the fuel `op_fuel` always suffices: `compress_path`
returns normally from any valid index. -/
theorem compress_path_ok {s : DisjointHashSet T} (hs : InBounds s) {id : Nat}
    (hid : id < s.data.length) :
    ∃ r s', s.compress_path id = .ok (r, s') := by
  classical
  set n : Nat := s.data.length with hn
  set f : Nat → Nat := parentFun s with hf
  have horb : ∀ k, f^[k] id < n := by
    intro k
    induction k with
    | zero => simpa using hid
    | succ k ih =>
      rw [Function.iterate_succ_apply']
      exact hs.parent_lt ih
  have hpigeon : ∃ i j, i ≤ n ∧ j ≤ n ∧ i < j ∧ f^[i] id = f^[j] id := by
    have hmap : ∀ a ∈ Finset.range (n+1), f^[a] id ∈ Finset.range n := by
      intro a _
      exact Finset.mem_range.2 (horb a)
    have hcard : (Finset.range n).card < (Finset.range (n+1)).card := by
      simp
    obtain ⟨i, hi, j, hj, hij, heq⟩ :=
      Finset.exists_ne_map_eq_of_card_lt_of_maps_to hcard hmap
    have hi' : i ≤ n := Nat.lt_succ_iff.1 (Finset.mem_range.1 hi)
    have hj' : j ≤ n := Nat.lt_succ_iff.1 (Finset.mem_range.1 hj)
    rcases Nat.lt_or_ge i j with hlt | hge
    · exact ⟨i, j, hi', hj', hlt, heq⟩
    · have hlt : j < i := Nat.lt_of_le_of_ne hge (fun hc => hij hc.symm)
      exact ⟨j, i, hj', hi', hlt, heq.symm⟩
  obtain ⟨i, j, hi, hj, hij, heq⟩ := hpigeon
  have hiper : f^[i] id ∈ Function.periodicPts f := by
    apply Function.mk_mem_periodicPts (Nat.sub_pos_of_lt hij)
    show f^[j - i] (f^[i] id) = f^[i] id
    rw [← Function.iterate_add_apply]
    have : j - i + i = j := by omega
    rw [this, heq]
  have hex : ∃ t, f^[t] id ∈ Function.periodicPts f := ⟨i, hiper⟩
  set t0 : Nat := Nat.find hex with ht0
  have hmem : f^[t0] id ∈ Function.periodicPts f := Nat.find_spec hex
  have hleast : ∀ j' < t0, f^[j'] id ∉ Function.periodicPts f :=
    fun j' hj' => Nat.find_min hex hj'
  have ht0n : t0 ≤ n := le_trans (Nat.find_min' hex hiper) hi
  set L : Nat := Function.minimalPeriod f (f^[t0] id) with hL
  have hLn : L ≤ n := by
    have hinj : Set.InjOn (fun m => f^[m] (f^[t0] id)) ↑(Finset.range L) := by
      rw [Finset.coe_range]
      exact Function.iterate_injOn_Iio_minimalPeriod
    have hmap : ∀ a ∈ Finset.range L, f^[a] (f^[t0] id) ∈ Finset.range n := by
      intro a _
      apply Finset.mem_range.2
      rw [← Function.iterate_add_apply]
      exact horb (a + t0)
    have := Finset.card_le_card_of_injOn _ hmap hinj
    simpa using this
  have hfuel : L * (n + 1) + t0 < op_fuel s := by
    have h1 : L * (n + 1) ≤ n * (n + 1) := Nat.mul_le_mul_right _ hLn
    have h2 : op_fuel s = (n + 1) * (n + 1) := by
      rw [op_fuel, size, hn]
    have h3 : (n + 1) * (n + 1) = n * (n + 1) + (n + 1) := by ring
    omega
  exact compress_path_fuel_ok_aux (op_fuel s) s id t0 hs hid hmem hleast hfuel

end DisjointHashSet

namespace DisjointHashSet

variable {T : Type} [DecidableEq T]

theorem compress_path_total {s : DisjointHashSet T} (hs : InBounds s) {id : Nat}
    (hid : id < s.data.length) :
    ∃ r s', s.compress_path id = .ok (r, s') ∧ r < s'.data.length ∧
      parentFun s' r = r ∧ InBounds s' ∧ s'.data.length = s.data.length ∧
      s'.map = s.map ∧ sizeFun s' = sizeFun s := by
  obtain ⟨r, s', hok⟩ := compress_path_ok hs hid
  obtain ⟨_, hpost⟩ := compress_path_fuel_post (op_fuel s) s id hs hid
  obtain ⟨h1, h2, h3, h4, h5, h6⟩ := hpost r s' hok
  exact ⟨r, s', hok, by omega, h2, h3, h4, h5, h6⟩

theorem insert_inner_total {s : DisjointHashSet T} (hs : InBounds s) (v : T) :
    ∃ id s', s.insert_inner v = (id, s') ∧ InBounds s' ∧ id < s'.data.length ∧
      s.data.length ≤ s'.data.length := by
  cases h : mapGet s.map v with
  | some id => exact ⟨id, s, insert_inner_present h, hs, hs.map_lt h, Nat.le_refl _⟩
  | none =>
    refine ⟨s.data.length, _, insert_inner_absent h, InBounds_push hs v, ?_, ?_⟩ <;> simp

theorem find_or_insert_total {s : DisjointHashSet T} (hs : InBounds s) (v : T) :
    ∃ r s', s.find_or_insert v = .ok (r, s') ∧ InBounds s' ∧ r < s'.data.length ∧
      parentFun s' r = r ∧ s.data.length ≤ s'.data.length := by
  obtain ⟨id, s1, he, hs1, hid1, hle⟩ := insert_inner_total hs v
  obtain ⟨r, s', hok, hr, hroot, hs', hlen, hmap, hsz⟩ := compress_path_total hs1 hid1
  refine ⟨r, s', ?_, hs', hr, hroot, by omega⟩
  unfold find_or_insert
  rw [he]
  exact hok

theorem find_total {s : DisjointHashSet T} (hs : InBounds s) (v : T) :
    ∃ r s', s.find v = .ok (r, s') ∧ InBounds s' ∧ s'.data.length = s.data.length ∧
      s'.map = s.map := by
  cases h : mapGet s.map v with
  | none =>
    refine ⟨none, s, ?_, hs, rfl, rfl⟩
    unfold find
    rw [h]
  | some id =>
    obtain ⟨r, s', hok, hr, hroot, hs', hlen, hmap, hsz⟩ :=
      compress_path_total hs (hs.map_lt h)
    refine ⟨some r, s', ?_, hs', hlen, hmap⟩
    unfold find
    rw [h]
    simp only [hok, ok_bind]

/-- Full case analysis of `union_inner` on an in-bounds state with valid
arguments: equal nodes are a no-op, otherwise one root is re-parented and the
other's size增 summed, following the `value.size < other.size` test. -/
theorem union_inner_cases {s : DisjointHashSet T} (hs : InBounds s) {a b : Nat}
    (ha : a < s.data.length) (hb : b < s.data.length) :
    (Node.mk (sizeFun s a) (parentFun s a) = Node.mk (sizeFun s b) (parentFun s b) ∧
      s.union_inner a b = .ok s) ∨
    (Node.mk (sizeFun s a) (parentFun s a) ≠ Node.mk (sizeFun s b) (parentFun s b) ∧
      sizeFun s a < sizeFun s b ∧
      s.union_inner a b = .ok
        { s with
          data := (s.data.set b (Node.mk (sizeFun s b) (parentFun s a))).set a
            (Node.mk (sizeFun s a + sizeFun s b) (parentFun s a)) }) ∨
    (Node.mk (sizeFun s a) (parentFun s a) ≠ Node.mk (sizeFun s b) (parentFun s b) ∧
      ¬ sizeFun s a < sizeFun s b ∧
      s.union_inner a b = .ok
        { s with
          data := (s.data.set a (Node.mk (sizeFun s a) (parentFun s b))).set b
            (Node.mk (sizeFun s b + sizeFun s a) (parentFun s b)) }) := by
  have hga := get_of_lt ha
  have hgb := get_of_lt hb
  have hab : Node.mk (sizeFun s a) (parentFun s a) ≠
      Node.mk (sizeFun s b) (parentFun s b) → a ≠ b := by
    intro hne hc
    subst hc
    exact hne rfl
  by_cases heq : Node.mk (sizeFun s a) (parentFun s a) =
      Node.mk (sizeFun s b) (parentFun s b)
  · left
    refine ⟨heq, ?_⟩
    unfold union_inner
    rw [hga, ok_bind, hgb, ok_bind, if_pos heq]
  · have hne := hab heq
    by_cases hlt : sizeFun s a < sizeFun s b
    · right; left
      refine ⟨heq, hlt, ?_⟩
      unfold union_inner
      rw [hga, ok_bind, hgb, ok_bind, if_neg heq, if_pos hlt]
      have hm1 := modify_node_of_lt hb
        (fun n => { n with parent := (Node.mk (sizeFun s a) (parentFun s a)).parent })
      rw [hm1, ok_bind]
      set s1 : DisjointHashSet T :=
        { s with data := s.data.set b (Node.mk (sizeFun s b) (parentFun s a)) }
        with hs1def
      have ha1 : a < s1.data.length := by
        simp only [hs1def, List.length_set]
        exact ha
      have hsz1 : sizeFun s1 a = sizeFun s a := by
        rw [hs1def, sizeFun_set hb, if_neg hne]
      have hpar1 : parentFun s1 a = parentFun s a := by
        rw [hs1def, parentFun_set hb, if_neg hne]
      have hm2 := modify_node_of_lt ha1
        (fun n => { n with size := n.size + (Node.mk (sizeFun s b) (parentFun s b)).size })
      rw [hm2]
      rw [hsz1, hpar1]
    · right; right
      refine ⟨heq, hlt, ?_⟩
      unfold union_inner
      rw [hga, ok_bind, hgb, ok_bind, if_neg heq, if_neg hlt]
      have hm1 := modify_node_of_lt ha
        (fun n => { n with parent := (Node.mk (sizeFun s b) (parentFun s b)).parent })
      rw [hm1, ok_bind]
      set s1 : DisjointHashSet T :=
        { s with data := s.data.set a (Node.mk (sizeFun s a) (parentFun s b)) }
        with hs1def
      have hb1 : b < s1.data.length := by
        simp only [hs1def, List.length_set]
        exact hb
      have hsz1 : sizeFun s1 b = sizeFun s b := by
        rw [hs1def, sizeFun_set ha, if_neg (fun hc => hne hc.symm)]
      have hpar1 : parentFun s1 b = parentFun s b := by
        rw [hs1def, parentFun_set ha, if_neg (fun hc => hne hc.symm)]
      have hm2 := modify_node_of_lt hb1
        (fun n => { n with size := n.size + (Node.mk (sizeFun s a) (parentFun s a)).size })
      rw [hm2]
      rw [hsz1, hpar1]

end DisjointHashSet

namespace DisjointHashSet

variable {T : Type} [DecidableEq T]

theorem findIdx?_some_bound {α : Type} (p : α → Bool) :
    ∀ (l : List α) (start i : Nat), List.findIdx? p l start = some i →
      start ≤ i ∧ i - start < l.length := by
  intro l
  induction l with
  | nil =>
    intro start i h
    simp [List.findIdx?] at h
  | cons x xs ih =>
    intro start i h
    rw [List.findIdx?_cons] at h
    by_cases hx : p x
    · rw [if_pos hx] at h
      cases h
      simp
    · rw [if_neg hx] at h
      obtain ⟨h1, h2⟩ := ih (start + 1) i h
      constructor
      · omega
      · simp only [List.length_cons]
        omega

theorem reparent_length (s : DisjointHashSet T) (id np start : Nat) :
    (s.data.take start ++ (s.data.drop start).map
        (fun v => if v.parent = id then { v with parent := np } else v)).length
      = s.data.length := by
  simp only [List.length_append, List.length_take, List.length_map, List.length_drop]
  omega

theorem InBounds_reparent {s : DisjointHashSet T} (hs : InBounds s) (id np start : Nat)
    (hnp : np < s.data.length) :
    InBounds
      { s with
        data := s.data.take start ++ (s.data.drop start).map
          (fun v => if v.parent = id then { v with parent := np } else v) } := by
  constructor
  · intro p hp
    rw [reparent_length]
    exact hs.1 p hp
  · intro nd hnd
    rw [reparent_length]
    rcases List.mem_append.1 hnd with h1 | h1
    · exact hs.2 nd (List.mem_of_mem_take h1)
    · obtain ⟨nd0, hnd0, hmapeq⟩ := List.mem_map.1 h1
      by_cases hc : nd0.parent = id
      · rw [← hmapeq, if_pos hc]
        exact hnp
      · rw [← hmapeq, if_neg hc]
        exact hs.2 nd0 (List.mem_of_mem_drop hnd0)

theorem split_inner_total {s : DisjointHashSet T} (hs : InBounds s) (v : T) :
    ∃ id s', s.split_inner v = .ok (id, s') ∧ InBounds s' ∧ id < s'.data.length ∧
      s.data.length ≤ s'.data.length := by
  obtain ⟨id, s1, he, hs1, hid1, hle⟩ := insert_inner_total hs v
  have hg := get_of_lt hid1
  by_cases hsz : sizeFun s1 id = 1
  · refine ⟨id, s1, ?_, hs1, hid1, hle⟩
    unfold split_inner
    rw [he]
    simp only [hg, ok_bind]
    rw [if_pos hsz]
  · by_cases hroot : id = parentFun s1 id
    · -- the split node is the root of its class: scan for the first child
      have hgetpar : (s1.data.get ⟨id, hid1⟩).parent = parentFun s1 id := by
        unfold parentFun
        have h' := List.getElem?_eq_some.2 ⟨hid1, rfl⟩
        rw [h']
        rfl
      have hpred : ((s1.data.get ⟨id, hid1⟩).parent == id) = true := by
        rw [hgetpar, ← hroot]
        simp
      have hfind : s1.data.findIdx? (fun w => w.parent == id) ≠ none := by
        intro hc
        have hall := List.findIdx?_eq_none_iff.1 hc
        have hmem : s1.data.get ⟨id, hid1⟩ ∈ s1.data := s1.data.get_mem _ _
        have hfalse := hall _ hmem
        rw [hfalse] at hpred
        cases hpred
      cases hfd : s1.data.findIdx? (fun w => w.parent == id) with
      | none => exact absurd hfd hfind
      | some pos =>
        obtain ⟨hpos0, hposlt⟩ := findIdx?_some_bound _ s1.data 0 pos hfd
        have hposlt' : pos < s1.data.length := by omega
        set s2 : DisjointHashSet T :=
          { s1 with
            data := s1.data.take (pos + 1) ++ (s1.data.drop (pos + 1)).map
              (fun w => if w.parent = id then { w with parent := pos } else w) }
          with hs2def
        have hs2 : InBounds s2 := InBounds_reparent hs1 id pos (pos + 1) hposlt'
        have hlen2 : s2.data.length = s1.data.length := reparent_length s1 id pos (pos + 1)
        have hid2 : id < s2.data.length := by omega
        have hmod := modify_node_of_lt hid2 (fun n => { n with size := 1 })
        refine ⟨id,
          { s2 with data := s2.data.set id (Node.mk 1 (parentFun s2 id)) },
          ?_, ?_, ?_, ?_⟩
        · unfold split_inner
          rw [he]
          simp only [hg, ok_bind]
          rw [if_neg hsz, if_pos hroot, hfd]
          simp only [ok_bind]
          rw [hmod, ok_bind]
        · exact InBounds_set_parent hs2 hid2 (hs2.parent_lt hid2) _
        · show id < (s2.data.set id (Node.mk 1 (parentFun s2 id))).length
          rw [List.length_set]
          exact hid2
        · show s.data.length ≤ (s2.data.set id (Node.mk 1 (parentFun s2 id))).length
          rw [List.length_set]
          omega
    · -- not the root: reparent the children to the split node's parent
      have hpar : parentFun s1 id < s1.data.length := hs1.parent_lt hid1
      set s2 : DisjointHashSet T :=
        { s1 with
          data := s1.data.take 0 ++ (s1.data.drop 0).map
            (fun w => if w.parent = id then { w with parent := parentFun s1 id } else w) }
        with hs2def
      have hs2 : InBounds s2 := InBounds_reparent hs1 id (parentFun s1 id) 0 hpar
      have hlen2 : s2.data.length = s1.data.length := reparent_length s1 id (parentFun s1 id) 0
      have hid2 : id < s2.data.length := by omega
      have hmod := modify_node_of_lt hid2 (fun n => { n with size := 1 })
      refine ⟨id,
        { s2 with data := s2.data.set id (Node.mk 1 (parentFun s2 id)) },
        ?_, ?_, ?_, ?_⟩
      · unfold split_inner
        rw [he]
        simp only [hg, ok_bind]
        rw [if_neg hsz, if_neg hroot, ← hs2def, hmod, ok_bind]
      · exact InBounds_set_parent hs2 hid2 (hs2.parent_lt hid2) _
      · show id < (s2.data.set id (Node.mk 1 (parentFun s2 id))).length
        rw [List.length_set]
        exact hid2
      · show s.data.length ≤ (s2.data.set id (Node.mk 1 (parentFun s2 id))).length
        rw [List.length_set]
        omega

end DisjointHashSet

namespace DisjointHashSet

variable {T : Type} [DecidableEq T]

theorem union_inner_total {s : DisjointHashSet T} (hs : InBounds s) {a b : Nat}
    (ha : a < s.data.length) (hb : b < s.data.length) :
    ∃ s', s.union_inner a b = .ok s' ∧ InBounds s' ∧ s'.data.length = s.data.length := by
  rcases union_inner_cases hs ha hb with ⟨_, h⟩ | ⟨_, _, h⟩ | ⟨_, _, h⟩
  · exact ⟨s, h, hs, rfl⟩
  · refine ⟨_, h, ?_, ?_⟩
    · have hs1 : InBounds
          { s with data := s.data.set b (Node.mk (sizeFun s b) (parentFun s a)) } :=
        InBounds_set_parent hs hb (hs.parent_lt ha) _
      have ha1 : a <
          ({ s with data := s.data.set b (Node.mk (sizeFun s b) (parentFun s a)) } :
            DisjointHashSet T).data.length := by
        simp only [List.length_set]
        exact ha
      exact InBounds_set_parent hs1 ha1
        (by simp only [List.length_set]; exact hs.parent_lt ha) _
    · simp [List.length_set]
  · refine ⟨_, h, ?_, ?_⟩
    · have hs1 : InBounds
          { s with data := s.data.set a (Node.mk (sizeFun s a) (parentFun s b)) } :=
        InBounds_set_parent hs ha (hs.parent_lt hb) _
      have hb1 : b <
          ({ s with data := s.data.set a (Node.mk (sizeFun s a) (parentFun s b)) } :
            DisjointHashSet T).data.length := by
        simp only [List.length_set]
        exact hb
      exact InBounds_set_parent hs1 hb1
        (by simp only [List.length_set]; exact hs.parent_lt hb) _
    · simp [List.length_set]

theorem union_total {s : DisjointHashSet T} (hs : InBounds s) (a b : T) :
    ∃ s', s.union a b = .ok s' ∧ InBounds s' ∧ s.data.length ≤ s'.data.length := by
  obtain ⟨ra, s1, h1, hs1, hra, hroot1, hle1⟩ := find_or_insert_total hs a
  obtain ⟨rb, s2, h2, hs2, hrb, hroot2, hle2⟩ := find_or_insert_total hs1 b
  have hra2 : ra < s2.data.length := by omega
  obtain ⟨s3, h3, hs3, hlen3⟩ := union_inner_total hs2 hra2 hrb
  refine ⟨s3, ?_, hs3, by omega⟩
  unfold union
  simp only [h1, ok_bind, h2, h3]

theorem connected_total {s : DisjointHashSet T} (hs : InBounds s) (a b : T) :
    ∃ r s', s.connected a b = .ok (r, s') ∧ InBounds s' ∧
      s'.data.length = s.data.length ∧ s'.map = s.map := by
  obtain ⟨x, s1, h1, hs1, hlen1, hmap1⟩ := find_total hs a
  obtain ⟨y, s2, h2, hs2, hlen2, hmap2⟩ := find_total hs1 b
  refine ⟨x == y, s2, ?_, hs2, by omega, by rw [hmap2, hmap1]⟩
  unfold connected
  simp only [h1, ok_bind, h2, ok_bind]

theorem insert_total {s : DisjointHashSet T} (hs : InBounds s) (v : T) :
    InBounds (s.insert v).2 ∧ s.data.length ≤ (s.insert v).2.data.length := by
  obtain ⟨id, s1, he, hs1, _, hle⟩ := insert_inner_total hs v
  unfold insert
  rw [he]
  exact ⟨hs1, hle⟩

theorem split_total {s : DisjointHashSet T} (hs : InBounds s) (v : T) :
    ∃ s', s.split v = .ok s' ∧ InBounds s' ∧ s.data.length ≤ s'.data.length := by
  obtain ⟨id, s1, h1, hs1, hid1, hle1⟩ := split_inner_total hs v
  have hmod := modify_node_of_lt hid1 (fun n => { n with parent := id })
  refine ⟨{ s1 with data := s1.data.set id (Node.mk (sizeFun s1 id) id) }, ?_, ?_, ?_⟩
  · unfold split
    simp only [h1, ok_bind, hmod]
  · exact InBounds_set_parent hs1 hid1 hid1 _
  · show s.data.length ≤ (s1.data.set id (Node.mk (sizeFun s1 id) id)).length
    rw [List.length_set]
    omega

theorem split_into_total {s : DisjointHashSet T} (hs : InBounds s) (a b : T) :
    ∃ s', s.split_into a b = .ok s' ∧ InBounds s' ∧ s.data.length ≤ s'.data.length := by
  obtain ⟨id, s1, h1, hs1, hid1, hle1⟩ := split_inner_total hs a
  obtain ⟨rb, s2, h2, hs2, hrb, hroot2, hle2⟩ := find_or_insert_total hs1 b
  have hid2 : id < s2.data.length := by omega
  obtain ⟨s3, h3, hs3, hlen3⟩ := union_inner_total hs2 hid2 hrb
  refine ⟨s3, ?_, hs3, by omega⟩
  unfold split_into
  simp only [h1, ok_bind, h2, h3]

theorem insert_set_go_total :
    ∀ (l : List T) (s : DisjointHashSet T) (k : Nat), InBounds s → k < s.data.length →
      ∃ s', insert_set_go s k l = .ok s' ∧ InBounds s' ∧
        s.data.length ≤ s'.data.length := by
  intro l
  induction l with
  | nil =>
    intro s k hs hk
    exact ⟨s, rfl, hs, Nat.le_refl _⟩
  | cons v rest ih =>
    intro s k hs hk
    obtain ⟨rv, s1, h1, hs1, hrv, hroot1, hle1⟩ := find_or_insert_total hs v
    have hk1 : k < s1.data.length := by omega
    obtain ⟨rk, s2, h2, hrk2, hroot2, hs2, hlen2, hmap2, hsz2⟩ := compress_path_total hs1 hk1
    have hrv2 : rv < s2.data.length := by omega
    obtain ⟨s3, h3, hs3, hlen3⟩ := union_inner_total hs2 hrk2 hrv2
    have hrk3 : rk < s3.data.length := by omega
    obtain ⟨s4, h4, hs4, hle4⟩ := ih s3 rk hs3 hrk3
    refine ⟨s4, ?_, hs4, by omega⟩
    show insert_set_go s k (v :: rest) = .ok s4
    unfold insert_set_go
    simp only [h1, ok_bind, h2, h3, h4]

theorem insert_set_total {s : DisjointHashSet T} (hs : InBounds s) (l : List T) :
    ∃ s', s.insert_set l = .ok s' ∧ InBounds s' ∧ s.data.length ≤ s'.data.length := by
  cases l with
  | nil => exact ⟨s, rfl, hs, Nat.le_refl _⟩
  | cons v rest =>
    obtain ⟨rv, s1, h1, hs1, hrv, hroot1, hle1⟩ := find_or_insert_total hs v
    obtain ⟨s2, h2, hs2, hle2⟩ := insert_set_go_total rest s1 rv hs1 hrv
    refine ⟨s2, ?_, hs2, by omega⟩
    unfold insert_set
    simp only [h1, ok_bind, h2]

theorem InBounds_new : InBounds (new T) := by
  constructor
  · intro p hp
    cases hp
  · intro nd hnd
    cases hnd

end DisjointHashSet

/-- Every state reachable by the public value-based operations keeps the map
identifiers and parent pointers in bounds. -/
theorem Reach_InBounds {T : Type} [DecidableEq T] {s : DisjointHashSet T}
    (h : Reach s) : DisjointHashSet.InBounds s := by
  induction h with
  | base => exact DisjointHashSet.InBounds_new
  | base_capacity cap => exact DisjointHashSet.InBounds_new
  | step_insert v hr ih => exact (DisjointHashSet.insert_total ih v).1
  | step_insert_set l hr heq ih =>
    obtain ⟨s', h', hs', _⟩ := DisjointHashSet.insert_set_total ih l
    have he := h'.symm.trans heq
    injection he with he'
    rw [← he']
    exact hs'
  | step_union a b hr heq ih =>
    obtain ⟨s', h', hs', _⟩ := DisjointHashSet.union_total ih a b
    have he := h'.symm.trans heq
    injection he with he'
    rw [← he']
    exact hs'
  | step_find v hr heq ih =>
    obtain ⟨r, s', h', hs', _, _⟩ := DisjointHashSet.find_total ih v
    have he := h'.symm.trans heq
    injection he with he'
    cases he'
    exact hs'
  | step_find_or_insert v hr heq ih =>
    obtain ⟨r, s', h', hs', _, _, _⟩ := DisjointHashSet.find_or_insert_total ih v
    have he := h'.symm.trans heq
    injection he with he'
    cases he'
    exact hs'
  | step_connected a b hr heq ih =>
    obtain ⟨r, s', h', hs', _, _⟩ := DisjointHashSet.connected_total ih a b
    have he := h'.symm.trans heq
    injection he with he'
    cases he'
    exact hs'
  | step_split v hr heq ih =>
    obtain ⟨s', h', hs', _⟩ := DisjointHashSet.split_total ih v
    have he := h'.symm.trans heq
    injection he with he'
    rw [← he']
    exact hs'
  | step_split_into a b hr heq ih =>
    obtain ⟨s', h', hs', _⟩ := DisjointHashSet.split_into_total ih a b
    have he := h'.symm.trans heq
    injection he with he'
    rw [← he']
    exact hs'

namespace DisjointHashSet

variable {T : Type} [DecidableEq T]

theorem bind_no_spin {a b : Type} {x : Except Err a} {f : a → Except Err b}
    (hx : x ≠ .error .spin) (hf : ∀ v, f v ≠ .error .spin) :
    (x >>= f) ≠ .error .spin := by
  cases x with
  | ok v =>
    rw [ok_bind]
    exact hf v
  | error e =>
    rw [error_bind]
    intro hc
    injection hc with he
    subst he
    exact hx rfl

theorem get_no_spin (s : DisjointHashSet T) (id : Nat) : s.get id ≠ .error .spin := by
  unfold get
  cases s.data[id]? <;> intro hc <;> cases hc

theorem modify_node_no_spin (s : DisjointHashSet T) (id : Nat) (f : Node → Node) :
    s.modify_node id f ≠ .error .spin := by
  unfold modify_node
  cases s.data[id]? <;> intro hc <;> cases hc

theorem union_inner_no_spin (s : DisjointHashSet T) (a b : Nat) :
    s.union_inner a b ≠ .error .spin := by
  unfold union_inner
  apply bind_no_spin (get_no_spin s a)
  intro na
  apply bind_no_spin (get_no_spin s b)
  intro nb
  by_cases h1 : na = nb
  · rw [if_pos h1]
    intro hc
    cases hc
  · rw [if_neg h1]
    by_cases h2 : na.size < nb.size
    · rw [if_pos h2]
      apply bind_no_spin (modify_node_no_spin _ _ _)
      intro s1
      exact modify_node_no_spin _ _ _
    · rw [if_neg h2]
      apply bind_no_spin (modify_node_no_spin _ _ _)
      intro s1
      exact modify_node_no_spin _ _ _

theorem compress_path_no_spin {s : DisjointHashSet T} (hs : InBounds s) (id : Nat) :
    s.compress_path id ≠ .error .spin := by
  rcases Nat.lt_or_ge id s.data.length with hlt | hge
  · obtain ⟨r, s', hok⟩ := compress_path_ok hs hlt
    rw [hok]
    intro hc
    cases hc
  · unfold compress_path
    have hpos : 0 < op_fuel s := Nat.mul_pos (Nat.succ_pos _) (Nat.succ_pos _)
    have h1 : op_fuel s = (op_fuel s - 1) + 1 := by omega
    rw [h1]
    simp only [compress_path_fuel, get_of_ge hge, error_bind]
    intro hc
    cases hc

theorem bind_no_spin2 {a b : Type} {x : Except Err a} {f : a → Except Err b}
    (hx : x ≠ .error .spin) (hf : ∀ v, x = .ok v → f v ≠ .error .spin) :
    (x >>= f) ≠ .error .spin := by
  cases x with
  | ok v =>
    rw [ok_bind]
    exact hf v rfl
  | error e =>
    rw [error_bind]
    intro hc
    injection hc with he
    subst he
    exact hx rfl

theorem compress_path_ok_inbounds {s s' : DisjointHashSet T} (hs : InBounds s)
    {id r : Nat} (hok : s.compress_path id = .ok (r, s')) : InBounds s' := by
  rcases Nat.lt_or_ge id s.data.length with hlt | hge
  · obtain ⟨_, hpost⟩ := compress_path_fuel_post (op_fuel s) s id hs hlt
    exact (hpost r s' hok).2.2.1
  · exfalso
    unfold compress_path at hok
    have hpos : 0 < op_fuel s := Nat.mul_pos (Nat.succ_pos _) (Nat.succ_pos _)
    have h1 : op_fuel s = (op_fuel s - 1) + 1 := by omega
    rw [h1] at hok
    simp only [compress_path_fuel, get_of_ge hge, error_bind] at hok
    cases hok

theorem union_sets_no_spin {s : DisjointHashSet T} (hs : InBounds s) (a b : Nat) :
    s.union_sets a b ≠ .error .spin := by
  unfold union_sets
  apply bind_no_spin2 (compress_path_no_spin hs a)
  rintro ⟨ra, s1⟩ hok1
  have hs1 : InBounds s1 := compress_path_ok_inbounds hs hok1
  apply bind_no_spin2 (compress_path_no_spin hs1 b)
  rintro ⟨rb, s2⟩ hok2
  intro hc
  exact union_inner_no_spin s2 ra rb hc

theorem split_into_set_no_spin {s : DisjointHashSet T} (hs : InBounds s) (v : T)
    (into : Nat) : s.split_into_set v into ≠ .error .spin := by
  obtain ⟨id, s1, h1, hs1, hid1, hle1⟩ := split_inner_total hs v
  unfold split_into_set
  rw [h1, ok_bind]
  apply bind_no_spin2 (compress_path_no_spin hs1 into)
  rintro ⟨rb, s2⟩ hok2
  intro hc
  exact union_inner_no_spin s2 id rb hc

end DisjointHashSet

open DisjointHashSet in
/-- **C9**: on every state reachable from `new()` (or `with_capacity`) by the
public value-based operations, every such operation runs to completion: none
of them exhausts the fuel of the embedded `compress_path` loop (`Err.spin`),
so the parent-chasing loop of path halving always reaches its fixed point —
including on the cyclic parent graphs that `split_inner`'s un-reset parent
combined with `union_inner` (via `split_into`) can produce.  `insert`,
`size` and `contains` are total functions of the model, and the
identifier-based `union_sets`/`split_into_set` never spin either (their only
abnormal outcome is a panic on an out-of-range identifier). -/
theorem C9_operations_terminate {T : Type} [DecidableEq T] {s : DisjointHashSet T}
    (h : Reach s) (v a b : T) (l : List T) (ida idb : Nat) :
    (∃ x, s.insert_set l = .ok x) ∧
    (∃ x, s.union a b = .ok x) ∧
    (∃ x, s.find v = .ok x) ∧
    (∃ x, s.find_or_insert v = .ok x) ∧
    (∃ x, s.connected a b = .ok x) ∧
    (∃ x, s.split v = .ok x) ∧
    (∃ x, s.split_into a b = .ok x) ∧
    s.union_sets ida idb ≠ .error .spin ∧
    s.split_into_set v ida ≠ .error .spin := by
  have hs := Reach_InBounds h
  obtain ⟨s1, h1, _, _⟩ := insert_set_total hs l
  obtain ⟨s2, h2, _, _⟩ := union_total hs a b
  obtain ⟨r3, s3, h3, _, _, _⟩ := find_total hs v
  obtain ⟨r4, s4, h4, _, _, _, _⟩ := find_or_insert_total hs v
  obtain ⟨r5, s5, h5, _, _, _⟩ := connected_total hs a b
  obtain ⟨s6, h6, _, _⟩ := split_total hs v
  obtain ⟨s7, h7, _, _⟩ := split_into_total hs a b
  exact ⟨⟨s1, h1⟩, ⟨s2, h2⟩, ⟨(r3, s3), h3⟩, ⟨(r4, s4), h4⟩, ⟨(r5, s5), h5⟩,
    ⟨s6, h6⟩, ⟨s7, h7⟩, union_sets_no_spin hs ida idb, split_into_set_no_spin hs v ida⟩

/-- **C9** witness: the theorem applied to the empty structure. -/
theorem C9_witness :
    (∃ x, (DisjointHashSet.new Nat).insert_set [0, 1] = .ok x) ∧
    (∃ x, (DisjointHashSet.new Nat).union 0 1 = .ok x) ∧
    (∃ x, (DisjointHashSet.new Nat).find 0 = .ok x) ∧
    (∃ x, (DisjointHashSet.new Nat).find_or_insert 0 = .ok x) ∧
    (∃ x, (DisjointHashSet.new Nat).connected 0 1 = .ok x) ∧
    (∃ x, (DisjointHashSet.new Nat).split 0 = .ok x) ∧
    (∃ x, (DisjointHashSet.new Nat).split_into 0 1 = .ok x) ∧
    (DisjointHashSet.new Nat).union_sets 0 1 ≠ .error .spin ∧
    (DisjointHashSet.new Nat).split_into_set 0 0 ≠ .error .spin :=
  C9_operations_terminate Reach.base 0 0 1 [0, 1] 0 1

open DisjointHashSet in
/-- **C10**: on every state reachable from `new()`/`with_capacity` by the
public value-based operations, every identifier stored in the value-to-Id
map and every node's parent field is a valid index strictly below
`data.len()` (the `InBounds` predicate), and consequently no value-based
public operation panics (`Err.fault`, modelling the Rust out-of-bounds
index in `get`/`get_mut` and the failed `unwrap` in `split_inner`);
`insert`, `size` and `contains` are total functions of the model. -/
theorem C10_reachable_in_bounds {T : Type} [DecidableEq T] {s : DisjointHashSet T}
    (h : Reach s) (v a b : T) (l : List T) :
    InBounds s ∧
    s.insert_set l ≠ .error .fault ∧
    s.union a b ≠ .error .fault ∧
    s.find v ≠ .error .fault ∧
    s.find_or_insert v ≠ .error .fault ∧
    s.connected a b ≠ .error .fault ∧
    s.split v ≠ .error .fault ∧
    s.split_into a b ≠ .error .fault := by
  have hs := Reach_InBounds h
  obtain ⟨s1, h1, _, _⟩ := insert_set_total hs l
  obtain ⟨s2, h2, _, _⟩ := union_total hs a b
  obtain ⟨r3, s3, h3, _, _, _⟩ := find_total hs v
  obtain ⟨r4, s4, h4, _, _, _, _⟩ := find_or_insert_total hs v
  obtain ⟨r5, s5, h5, _, _, _⟩ := connected_total hs a b
  obtain ⟨s6, h6, _, _⟩ := split_total hs v
  obtain ⟨s7, h7, _, _⟩ := split_into_total hs a b
  refine ⟨hs, ?_, ?_, ?_, ?_, ?_, ?_, ?_⟩ <;>
    first
      | (rw [h1]; intro hc; cases hc)
      | (rw [h2]; intro hc; cases hc)
      | (rw [h3]; intro hc; cases hc)
      | (rw [h4]; intro hc; cases hc)
      | (rw [h5]; intro hc; cases hc)
      | (rw [h6]; intro hc; cases hc)
      | (rw [h7]; intro hc; cases hc)

/-- **C10** witness: the theorem applied to the empty structure. -/
theorem C10_witness :
    DisjointHashSet.InBounds (DisjointHashSet.new Nat) ∧
    (DisjointHashSet.new Nat).insert_set [0, 1] ≠ .error .fault ∧
    (DisjointHashSet.new Nat).union 0 1 ≠ .error .fault ∧
    (DisjointHashSet.new Nat).find 0 ≠ .error .fault ∧
    (DisjointHashSet.new Nat).find_or_insert 0 ≠ .error .fault ∧
    (DisjointHashSet.new Nat).connected 0 1 ≠ .error .fault ∧
    (DisjointHashSet.new Nat).split 0 ≠ .error .fault ∧
    (DisjointHashSet.new Nat).split_into 0 1 ≠ .error .fault :=
  C10_reachable_in_bounds Reach.base 0 0 1 [0, 1]

/-! ### Well-formed forests: roots, and their preservation by the operations

On states whose parent chains all reach a fixed point within `data.length`
steps (`WF`), `compress_path` computes `rootOf` and the operations transform
`rootOf` in the expected way.  These lemmas underlie the equivalence-relation
and union/connected claims. -/

namespace DisjointHashSet

variable {T : Type} [DecidableEq T]

theorem parentFun_out {s : DisjointHashSet T} {x : Nat} (h : s.data.length ≤ x) :
    parentFun s x = x := by
  unfold parentFun
  rw [List.getElem?_eq_none h]

theorem rootOf_out {s : DisjointHashSet T} {x : Nat} (h : s.data.length ≤ x) :
    rootOf s x = x :=
  Function.iterate_fixed (parentFun_out h) _

theorem WF.rootOf_fix {s : DisjointHashSet T} (hs : WF s) (x : Nat) :
    parentFun s (rootOf s x) = rootOf s x := by
  rcases Nat.lt_or_ge x s.data.length with hlt | hge
  · exact hs.2 x hlt
  · rw [rootOf_out hge]
    exact parentFun_out hge

/-- A node that reaches a fixed point at all reaches it within `data.length`
steps, because the minimal path to it repeats no index. -/
theorem rootOf_eq_of_reaches {s : DisjointHashSet T} (hs : InBounds s) {x r : Nat}
    (hx : x < s.data.length) (hex : ∃ m, (parentFun s)^[m] x = r)
    (hr : parentFun s r = r) : rootOf s x = r := by
  classical
  set f : Nat → Nat := parentFun s with hf
  set n : Nat := s.data.length with hn
  have horb : ∀ k, f^[k] x < n := by
    intro k
    induction k with
    | zero => simpa using hx
    | succ k ih =>
      rw [Function.iterate_succ_apply']
      exact hs.parent_lt ih
  set m0 : Nat := Nat.find hex with hm0
  have hspec : f^[m0] x = r := Nat.find_spec hex
  have hdist : Set.InjOn (fun j => f^[j] x) ↑(Finset.range (m0 + 1)) := by
    intro i hi j hj hij
    simp only [Finset.coe_range, Set.mem_Iio] at hi hj
    have hij2 : f^[i] x = f^[j] x := hij
    by_contra hne
    rcases Nat.lt_or_ge i j with hlt | hge
    · have : f^[m0 - (j - i)] x = r := by
        have h1 : m0 = (m0 - j) + j := by omega
        have h2 : f^[m0] x = f^[(m0 - j) + j] x := by rw [← h1]
        have h3 : f^[(m0 - j) + j] x = f^[m0 - j] (f^[j] x) :=
          Function.iterate_add_apply f (m0 - j) j x
        have h4 : f^[m0 - j] (f^[j] x) = f^[m0 - j] (f^[i] x) := by rw [← hij2]
        have h5 : f^[m0 - j] (f^[i] x) = f^[(m0 - j) + i] x :=
          (Function.iterate_add_apply f (m0 - j) i x).symm
        have h6 : m0 - (j - i) = (m0 - j) + i := by omega
        rw [h6]
        rw [← h5, ← h4, ← h3, ← h2, hspec]
      have hlt' : m0 - (j - i) < m0 := by omega
      exact Nat.find_min hex hlt' this
    · have hlt' : j < i := by omega
      have : f^[m0 - (i - j)] x = r := by
        have h1 : m0 = (m0 - i) + i := by omega
        have h2 : f^[m0] x = f^[(m0 - i) + i] x := by rw [← h1]
        have h3 : f^[(m0 - i) + i] x = f^[m0 - i] (f^[i] x) :=
          Function.iterate_add_apply f (m0 - i) i x
        have h4 : f^[m0 - i] (f^[i] x) = f^[m0 - i] (f^[j] x) := by rw [hij2]
        have h5 : f^[m0 - i] (f^[j] x) = f^[(m0 - i) + j] x :=
          (Function.iterate_add_apply f (m0 - i) j x).symm
        have h6 : m0 - (i - j) = (m0 - i) + j := by omega
        rw [h6]
        rw [← h5, ← h4, ← h3, ← h2, hspec]
      have hlt'' : m0 - (i - j) < m0 := by omega
      exact Nat.find_min hex hlt'' this
  have hcard : m0 + 1 ≤ n := by
    have hmap : ∀ j ∈ Finset.range (m0 + 1), f^[j] x ∈ Finset.range n := by
      intro j _
      exact Finset.mem_range.2 (horb j)
    have := Finset.card_le_card_of_injOn _ hmap hdist
    simpa using this
  have hm0n : m0 ≤ n := by omega
  show f^[n] x = r
  have h1 : n = (n - m0) + m0 := by omega
  calc f^[n] x = f^[(n - m0) + m0] x := by rw [← h1]
    _ = f^[n - m0] (f^[m0] x) := Function.iterate_add_apply f (n - m0) m0 x
    _ = f^[n - m0] r := by rw [hspec]
    _ = r := Function.iterate_fixed hr _

theorem WF_of_reaches {s : DisjointHashSet T} (hs : InBounds s)
    (h : ∀ i < s.data.length, ∃ r, (∃ m, (parentFun s)^[m] i = r) ∧ parentFun s r = r) :
    WF s := by
  refine ⟨hs, fun i hi => ?_⟩
  obtain ⟨r, hex, hr⟩ := h i hi
  rw [rootOf_eq_of_reaches hs hi hex hr] at *
  exact hr

end DisjointHashSet

namespace DisjointHashSet

variable {T : Type} [DecidableEq T]

/-- Transfer of reaching a fixed point across one halving rewrite
`update f id (f (f id))`. -/
theorem reaches_update_halving {f : Nat → Nat} {a : Nat} (hne : f a ≠ a) :
    ∀ k x r, f^[k] x = r → f r = r →
      ∃ m, (Function.update f a (f (f a)))^[m] x = r := by
  intro k
  induction k using Nat.strong_induction_on with
  | _ k ih =>
    intro x r hk hr
    by_cases hx : f x = x
    · have hxr : x = r := by
        rw [← hk, Function.iterate_fixed hx]
      subst hxr
      exact ⟨0, rfl⟩
    · match k, hk with
      | 0, hk =>
        rw [Function.iterate_zero_apply] at hk
        subst hk
        exact absurd hr hx
      | k + 1, hk =>
        rw [Function.iterate_succ_apply] at hk
        have hu : Function.update f a (f (f a)) a = f (f a) :=
          Function.update_same _ _ _
        by_cases hxa : x = a
        · match k, hk with
          | 0, hk =>
            rw [Function.iterate_zero_apply] at hk
            refine ⟨1, ?_⟩
            rw [Function.iterate_one, hxa, hu]
            have h1 : f a = r := by
              rw [← hxa]
              exact hk
            rw [h1]
            exact hr
          | k + 1, hk =>
            rw [Function.iterate_succ_apply] at hk
            rw [hxa] at hk
            obtain ⟨m, hm⟩ := ih k (by omega) (f (f a)) r hk hr
            refine ⟨m + 1, ?_⟩
            rw [Function.iterate_succ_apply, hxa, hu]
            exact hm
        · obtain ⟨m, hm⟩ := ih k (by omega) (f x) r hk hr
          refine ⟨m + 1, ?_⟩
          rw [Function.iterate_succ_apply, Function.update_noteq hxa]
          exact hm

/-- Transfer of reaching a fixed point across attaching the root `lose` under
the root `win` (`update f lose win`): everything that reached `lose` now
reaches `win`, everything else keeps its root. -/
theorem reaches_update_attach {f : Nat → Nat} {win lose : Nat}
    (hwin : f win = win) (hlose : f lose = lose) (hne : lose ≠ win) :
    ∀ k x r, f^[k] x = r → f r = r →
      ∃ m, (Function.update f lose win)^[m] x = (if r = lose then win else r) := by
  intro k
  induction k using Nat.strong_induction_on with
  | _ k ih =>
    intro x r hk hr
    by_cases hx : f x = x
    · have hxr : x = r := by
        rw [← hk, Function.iterate_fixed hx]
      subst hxr
      by_cases hxl : x = lose
      · subst hxl
        refine ⟨1, ?_⟩
        rw [if_pos rfl, Function.iterate_one, Function.update_same]
      · refine ⟨0, ?_⟩
        rw [if_neg hxl, Function.iterate_zero_apply]
    · match k, hk with
      | 0, hk =>
        rw [Function.iterate_zero_apply] at hk
        subst hk
        exact absurd hr hx
      | k + 1, hk =>
        rw [Function.iterate_succ_apply] at hk
        have hxl : x ≠ lose := by
          intro hc
          subst hc
          exact hx hlose
        obtain ⟨m, hm⟩ := ih k (by omega) (f x) r hk hr
        refine ⟨m + 1, ?_⟩
        rw [Function.iterate_succ_apply, Function.update_noteq hxl]
        exact hm

/-- The state produced by one halving iteration of `compress_path` stays
well formed and keeps every node's root. -/
theorem WF_halving {s : DisjointHashSet T} (hs : WF s) {id : Nat}
    (hid : id < s.data.length) (hne : parentFun s id ≠ id) :
    WF { s with
          data := s.data.set id (Node.mk (sizeFun s id) (parentFun s (parentFun s id))) } ∧
      ∀ x, rootOf
          { s with
            data := s.data.set id (Node.mk (sizeFun s id) (parentFun s (parentFun s id))) }
          x = rootOf s x := by
  set s2 : DisjointHashSet T :=
    { s with
      data := s.data.set id (Node.mk (sizeFun s id) (parentFun s (parentFun s id))) }
    with hs2def
  have hp : parentFun s id < s.data.length := hs.1.parent_lt hid
  have hp2 : parentFun s (parentFun s id) < s.data.length := hs.1.parent_lt hp
  have hs2b : InBounds s2 := InBounds_set_parent hs.1 hid hp2 _
  have hlen2 : s2.data.length = s.data.length := by
    simp [hs2def, List.length_set]
  have hpar2 : parentFun s2 =
      Function.update (parentFun s) id (parentFun s (parentFun s id)) :=
    parentFun_halving hid
  have hreach : ∀ x, ∃ m, (parentFun s2)^[m] x = rootOf s x := by
    intro x
    rw [hpar2]
    exact reaches_update_halving hne s.data.length x (rootOf s x) rfl (hs.rootOf_fix x)
  have hfix2 : ∀ x, parentFun s2 (rootOf s x) = rootOf s x := by
    intro x
    have hner : rootOf s x ≠ id := by
      intro hc
      apply hne
      rw [← hc]
      exact hs.rootOf_fix x
    rw [hpar2, Function.update_noteq hner]
    exact hs.rootOf_fix x
  have hroots : ∀ x, rootOf s2 x = rootOf s x := by
    intro x
    rcases Nat.lt_or_ge x s2.data.length with hlt | hge
    · exact rootOf_eq_of_reaches hs2b hlt (hreach x) (hfix2 x)
    · rw [rootOf_out hge, rootOf_out (by omega)]
  refine ⟨WF_of_reaches hs2b ?_, hroots⟩
  intro i hi
  exact ⟨rootOf s i, hreach i, hfix2 i⟩

/-- When it succeeds on a well-formed state, `compress_path` returns the root
of its argument, keeps the state well formed, and changes no node's root. -/
theorem compress_path_fuel_root (fuel : Nat) :
    ∀ (s : DisjointHashSet T) (id : Nat) (r : Nat) (s' : DisjointHashSet T),
      WF s → id < s.data.length →
      compress_path_fuel fuel s id = .ok (r, s') →
      r = rootOf s id ∧ WF s' ∧ (∀ x, rootOf s' x = rootOf s x) ∧
      (∀ x, parentFun s x = x → parentFun s' x = x) := by
  induction fuel with
  | zero =>
    intro s id r s' _ _ hc
    simp [compress_path_fuel] at hc
  | succ fuel ih =>
    intro s id r s' hs hid hok
    have hgid := get_of_lt hid
    by_cases hroot : parentFun s id = id
    · have hstep : compress_path_fuel (fuel + 1) s id = .ok (id, s) := by
        simp only [compress_path_fuel, hgid, ok_bind]
        simp [hroot]
      rw [hstep] at hok
      cases hok
      refine ⟨?_, hs, fun x => rfl, fun x hx => hx⟩
      have : rootOf s id = id := Function.iterate_fixed hroot _
      rw [this]
    · have hp : parentFun s id < s.data.length := hs.1.parent_lt hid
      have hgp := get_of_lt hp
      have hmod := modify_node_of_lt hid
        (fun n => { n with parent := (Node.mk (sizeFun s (parentFun s id))
          (parentFun s (parentFun s id))).parent })
      have hstep : compress_path_fuel (fuel + 1) s id =
          compress_path_fuel fuel
            { s with data :=
                s.data.set id (Node.mk (sizeFun s id) (parentFun s (parentFun s id))) }
            (parentFun s id) := by
        simp only [compress_path_fuel, hgid, ok_bind]
        rw [if_neg hroot]
        simp only [hgp, ok_bind, hmod, ok_bind]
      set s2 : DisjointHashSet T :=
        { s with data :=
            s.data.set id (Node.mk (sizeFun s id) (parentFun s (parentFun s id))) }
        with hs2def
      obtain ⟨hWF2, hroots2⟩ := WF_halving hs hid hroot
      have hlen2 : s2.data.length = s.data.length := by
        simp [hs2def, List.length_set]
      rw [hstep] at hok
      obtain ⟨h1, h2, h3, h4⟩ := ih s2 (parentFun s id) r s' hWF2 (by omega) hok
      refine ⟨?_, h2, ?_, ?_⟩
      · rw [h1, hroots2]
        show rootOf s (parentFun s id) = rootOf s id
        unfold rootOf
        calc (parentFun s)^[s.data.length] (parentFun s id)
            = (parentFun s)^[s.data.length + 1] id := by
              rw [← Function.iterate_succ_apply]
          _ = parentFun s ((parentFun s)^[s.data.length] id) := by
              rw [Function.iterate_succ_apply']
          _ = (parentFun s)^[s.data.length] id := hs.rootOf_fix id
      · intro x
        rw [h3, hroots2]
      · intro x hx
        apply h4
        have hpar2 : parentFun s2 =
            Function.update (parentFun s) id (parentFun s (parentFun s id)) :=
          parentFun_halving hid
        have hner : x ≠ id := by
          intro hc
          subst hc
          exact hroot hx
        rw [hpar2, Function.update_noteq hner, hx]

/-- Success, correctness and preservation of `compress_path` on well-formed
states. -/
theorem compress_path_wf {s : DisjointHashSet T} (hs : WF s) {id : Nat}
    (hid : id < s.data.length) :
    ∃ s', s.compress_path id = .ok (rootOf s id, s') ∧ WF s' ∧
      (∀ x, rootOf s' x = rootOf s x) ∧
      (∀ x, parentFun s x = x → parentFun s' x = x) ∧
      s'.data.length = s.data.length ∧ s'.map = s.map ∧ sizeFun s' = sizeFun s := by
  obtain ⟨r, s', hok⟩ := compress_path_ok hs.1 hid
  obtain ⟨_, hpost⟩ := compress_path_fuel_post (op_fuel s) s id hs.1 hid
  obtain ⟨hb1, hb2, hb3, hb4, hb5, hb6⟩ := hpost r s' hok
  obtain ⟨hr, hWF, hroots, hpres⟩ := compress_path_fuel_root (op_fuel s) s id r s' hs hid hok
  subst hr
  exact ⟨s', hok, hWF, hroots, hpres, hb4, hb5, hb6⟩

end DisjointHashSet

namespace DisjointHashSet

variable {T : Type} [DecidableEq T]

theorem WF_push {s : DisjointHashSet T} (hs : WF s) (v : T) :
    WF (DisjointHashSet.mk (mapInsert s.map v s.data.length)
        (s.data ++ [Node.new s.data.length])) ∧
    ∀ x, rootOf (DisjointHashSet.mk (mapInsert s.map v s.data.length)
        (s.data ++ [Node.new s.data.length])) x = rootOf s x := by
  set s2 : DisjointHashSet T :=
    DisjointHashSet.mk (mapInsert s.map v s.data.length)
      (s.data ++ [Node.new s.data.length]) with hs2def
  have hlen2 : s2.data.length = s.data.length + 1 := by
    simp [hs2def]
  have hs2b : InBounds s2 := InBounds_push hs.1 v
  have hpar2 : ∀ j, parentFun s2 j = if j = s.data.length then s.data.length
      else parentFun s j := parentFun_push s _
  have horb : ∀ x, x < s.data.length → ∀ k, (parentFun s)^[k] x < s.data.length := by
    intro x hx k
    induction k with
    | zero => simpa using hx
    | succ k ih =>
      rw [Function.iterate_succ_apply']
      exact hs.1.parent_lt ih
  have hagree : ∀ x, x < s.data.length →
      ∀ k, (parentFun s2)^[k] x = (parentFun s)^[k] x := by
    intro x hx k
    induction k with
    | zero => rfl
    | succ k ih =>
      rw [Function.iterate_succ_apply', Function.iterate_succ_apply', ih, hpar2]
      rw [if_neg (Nat.ne_of_lt (horb x hx k))]
  have hroots : ∀ x, rootOf s2 x = rootOf s x := by
    intro x
    rcases Nat.lt_or_ge x s.data.length with hlt | hge
    · have hr : parentFun s2 (rootOf s x) = rootOf s x := by
        rw [hpar2]
        have hrlt : rootOf s x < s.data.length := horb x hlt s.data.length
        rw [if_neg (Nat.ne_of_lt hrlt)]
        exact hs.rootOf_fix x
      refine rootOf_eq_of_reaches hs2b (by omega) ⟨s.data.length, ?_⟩ hr
      rw [hagree x hlt]
      rfl
    · rcases Nat.lt_or_ge x s2.data.length with hlt2 | hge2
      · have hxeq : x = s.data.length := by omega
        subst hxeq
        have hfix : parentFun s2 s.data.length = s.data.length := by
          rw [hpar2]
          simp
        rw [rootOf_out hge, rootOf, Function.iterate_fixed hfix]
      · rw [rootOf_out hge2, rootOf_out hge]
  refine ⟨WF_of_reaches hs2b ?_, hroots⟩
  intro i hi
  refine ⟨rootOf s2 i, ⟨s2.data.length, rfl⟩, ?_⟩
  rw [hroots i]
  rcases Nat.lt_or_ge i s.data.length with hlt | hge
  · rw [hpar2]
    have hrlt : rootOf s i < s.data.length := horb i hlt s.data.length
    rw [if_neg (Nat.ne_of_lt hrlt)]
    exact hs.rootOf_fix i
  · have hieq : i = s.data.length := by omega
    subst hieq
    rw [rootOf_out (Nat.le_refl _), hpar2]
    simp

theorem insert_inner_wf {s : DisjointHashSet T} (hs : WF s) (v : T) :
    ∃ id s', s.insert_inner v = (id, s') ∧ WF s' ∧ id < s'.data.length ∧
      mapGet s'.map v = some id ∧
      (∀ w, mapGet s'.map w = if w = v then some id else mapGet s.map w) ∧
      (∀ x, rootOf s' x = rootOf s x) ∧
      (∀ x, x < s.data.length → sizeFun s' x = sizeFun s x) ∧
      s.data.length ≤ s'.data.length ∧
      (∀ x, parentFun s x = x → parentFun s' x = x) := by
  cases h : mapGet s.map v with
  | some id =>
    refine ⟨id, s, insert_inner_present h, hs, hs.1.map_lt h, h, ?_, fun x => rfl,
      fun x _ => rfl, Nat.le_refl _, fun x hx => hx⟩
    intro w
    by_cases hw : w = v
    · subst hw
      rw [if_pos rfl, h]
    · rw [if_neg hw]
  | none =>
    obtain ⟨hWF2, hroots2⟩ := WF_push hs v
    refine ⟨s.data.length, _, insert_inner_absent h, hWF2, by simp, ?_, ?_, hroots2,
      ?_, by simp, ?_⟩
    · exact mapGet_mapInsert_self _ _ _
    · intro w
      by_cases hw : w = v
      · subst hw
        rw [if_pos rfl]
        exact mapGet_mapInsert_self _ _ _
      · rw [if_neg hw]
        exact mapGet_mapInsert_ne _ _ hw
    · intro x hx
      rw [sizeFun_push s _, if_neg (Nat.ne_of_lt hx)]
    · intro x hx
      rw [parentFun_push s _]
      by_cases hxn : x = s.data.length
      · rw [if_pos hxn, hxn]
      · rw [if_neg hxn]
        exact hx

end DisjointHashSet

namespace DisjointHashSet

variable {T : Type} [DecidableEq T]

theorem find_or_insert_wf {s : DisjointHashSet T} (hs : WF s) (v : T) :
    ∃ id r s', s.find_or_insert v = .ok (r, s') ∧ WF s' ∧
      mapGet s'.map v = some id ∧ r = rootOf s id ∧ r = rootOf s' id ∧
      parentFun s' r = r ∧
      (∀ w, mapGet s'.map w = if w = v then some id else mapGet s.map w) ∧
      (∀ x, rootOf s' x = rootOf s x) ∧
      (∀ x, parentFun s x = x → parentFun s' x = x) ∧
      s.data.length ≤ s'.data.length ∧ id < s'.data.length := by
  obtain ⟨id, sI, he, hWFI, hidI, hmapv, hmapall, hrootsI, hsizesI, hleI, hrpresI⟩ :=
    insert_inner_wf hs v
  obtain ⟨s', hok, hWF', hroots', hrpres', hlen', hmap', hsz'⟩ := compress_path_wf hWFI hidI
  refine ⟨id, rootOf sI id, s', ?_, hWF', ?_, ?_, ?_, ?_, ?_, ?_, ?_, ?_, ?_⟩
  · unfold find_or_insert
    rw [he]
    exact hok
  · rw [hmap']
    exact hmapv
  · exact hrootsI id
  · exact (hroots' id).symm
  · have h1 : rootOf sI id = rootOf s' id := (hroots' id).symm
    rw [h1]
    exact hWF'.rootOf_fix id
  · intro w
    rw [hmap']
    exact hmapall w
  · intro x
    rw [hroots' x]
    exact hrootsI x
  · intro x hx
    exact hrpres' x (hrpresI x hx)
  · omega
  · omega

theorem find_wf {s : DisjointHashSet T} (hs : WF s) (v : T) :
    ∃ s', s.find v = .ok (Option.map (rootOf s) (mapGet s.map v), s') ∧ WF s' ∧
      s'.map = s.map ∧ (∀ x, rootOf s' x = rootOf s x) ∧
      (∀ x, parentFun s x = x → parentFun s' x = x) ∧
      s'.data.length = s.data.length := by
  cases h : mapGet s.map v with
  | none =>
    refine ⟨s, ?_, hs, rfl, fun x => rfl, fun x hx => hx, rfl⟩
    unfold find
    rw [h]
    rfl
  | some id =>
    obtain ⟨s', hok, hWF', hroots', hrpres', hlen', hmap', hsz'⟩ :=
      compress_path_wf hs (hs.1.map_lt h)
    refine ⟨s', ?_, hWF', hmap', hroots', hrpres', hlen'⟩
    unfold find
    rw [h]
    simp only [hok, ok_bind]
    rfl

theorem connected_wf {s : DisjointHashSet T} (hs : WF s) (a b : T) :
    ∃ s', s.connected a b = .ok ((optRoot s a == optRoot s b), s') ∧ WF s' ∧
      s'.map = s.map ∧ (∀ x, rootOf s' x = rootOf s x) ∧
      s'.data.length = s.data.length := by
  obtain ⟨t1, h1, hWF1, hmap1, hroots1, hrpres1, hlen1⟩ := find_wf hs a
  obtain ⟨s', h2, hWF2, hmap2, hroots2, hrpres2, hlen2⟩ := find_wf hWF1 b
  have hb : Option.map (rootOf t1) (mapGet t1.map b) =
      Option.map (rootOf s) (mapGet s.map b) := by
    rw [hmap1]
    cases hmb : mapGet s.map b with
    | none => rfl
    | some idb =>
      simp only [Option.map_some']
      rw [hroots1 idb]
  refine ⟨s', ?_, hWF2, by rw [hmap2, hmap1], ?_, by omega⟩
  · unfold connected
    simp only [h1, ok_bind, h2, ok_bind]
    rw [hb]
    rfl
  · intro x
    rw [hroots2 x, hroots1 x]

end DisjointHashSet

namespace DisjointHashSet

variable {T : Type} [DecidableEq T]

theorem union_inner_self {s : DisjointHashSet T} {r : Nat} (hr : r < s.data.length) :
    s.union_inner r r = .ok s := by
  have hg := get_of_lt hr
  unfold union_inner
  rw [hg, ok_bind, ok_bind, if_pos rfl]

/-- Re-rooting `lose` under `win` merges exactly the two classes and keeps
the forest well formed (stated for any state whose parent function is the
pointwise update). -/
theorem WF_attach {s : DisjointHashSet T} (hs : WF s) {win lose : Nat}
    (hwin : parentFun s win = win) (hlose : parentFun s lose = lose)
    (hne : lose ≠ win) (hl : lose < s.data.length)
    {s' : DisjointHashSet T}
    (hpar : ∀ j, parentFun s' j = if j = lose then win else parentFun s j)
    (hlen : s'.data.length = s.data.length) (hsInB : InBounds s') :
    WF s' ∧ ∀ x, rootOf s' x = if rootOf s x = lose then win else rootOf s x := by
  have hg : parentFun s' = Function.update (parentFun s) lose win := by
    funext j
    rw [hpar j, Function.update_apply]
  have htfix : ∀ x, parentFun s'
      (if rootOf s x = lose then win else rootOf s x) =
      (if rootOf s x = lose then win else rootOf s x) := by
    intro x
    by_cases hx : rootOf s x = lose
    · rw [if_pos hx, hpar win, if_neg (fun hc => hne hc.symm), hwin]
    · rw [if_neg hx, hpar (rootOf s x), if_neg hx]
      exact hs.rootOf_fix x
  have hreach : ∀ x, ∃ m, (parentFun s')^[m] x =
      (if rootOf s x = lose then win else rootOf s x) := by
    intro x
    rw [hg]
    exact reaches_update_attach hwin hlose hne s.data.length x (rootOf s x) rfl
      (hs.rootOf_fix x)
  have hroots : ∀ x, rootOf s' x = if rootOf s x = lose then win else rootOf s x := by
    intro x
    rcases Nat.lt_or_ge x s'.data.length with hlt | hge
    · exact rootOf_eq_of_reaches hsInB hlt (hreach x) (htfix x)
    · have hge' : s.data.length ≤ x := by omega
      rw [rootOf_out hge, rootOf_out hge']
      have hxl : ¬ x = lose := by omega
      rw [if_neg hxl]
  refine ⟨WF_of_reaches hsInB ?_, hroots⟩
  intro i hi
  exact ⟨_, hreach i, htfix i⟩

/-- Characterization of `union_inner` applied to two distinct roots of a
well-formed state: the direction of attachment follows
`value.size < other.size`, the surviving root's size is the sum, and the two
classes merge. -/
theorem union_inner_roots_wf {s : DisjointHashSet T} (hs : WF s) {a b : Nat}
    (ha : a < s.data.length) (hb : b < s.data.length)
    (hra : parentFun s a = a) (hrb : parentFun s b = b) (hab : a ≠ b) :
    ∃ s', s.union_inner a b = .ok s' ∧ WF s' ∧ s'.map = s.map ∧
      s'.data.length = s.data.length ∧
      (sizeFun s a < sizeFun s b →
        parentFun s' b = a ∧ sizeFun s' a = sizeFun s a + sizeFun s b ∧
        (∀ x, rootOf s' x = if rootOf s x = b then a else rootOf s x)) ∧
      (¬ sizeFun s a < sizeFun s b →
        parentFun s' a = b ∧ sizeFun s' b = sizeFun s b + sizeFun s a ∧
        (∀ x, rootOf s' x = if rootOf s x = a then b else rootOf s x)) := by
  have hnodes : Node.mk (sizeFun s a) (parentFun s a) ≠
      Node.mk (sizeFun s b) (parentFun s b) := by
    intro hc
    injection hc with h1 h2
    rw [hra, hrb] at h2
    exact hab h2
  have hpa : parentFun s a < s.data.length := hs.1.parent_lt ha
  have hpb : parentFun s b < s.data.length := hs.1.parent_lt hb
  rcases union_inner_cases hs.1 ha hb with ⟨heq, _⟩ | ⟨_, hlt, hok⟩ | ⟨_, hlt, hok⟩
  · exact absurd heq hnodes
  · -- value.size < other.size: b is re-parented under a
    set s1 : DisjointHashSet T :=
      { s with data := s.data.set b (Node.mk (sizeFun s b) (parentFun s a)) }
      with hs1def
    set s' : DisjointHashSet T :=
      { s1 with data := s1.data.set a (Node.mk (sizeFun s a + sizeFun s b) (parentFun s a)) }
      with hsdef
    have hlen1 : s1.data.length = s.data.length := by
      rw [hs1def]
      exact List.length_set ..
    have hb1 : b < s1.data.length := by omega
    have ha1 : a < s1.data.length := by omega
    have hlen : s'.data.length = s.data.length := by
      rw [hsdef]
      show (s1.data.set a (Node.mk (sizeFun s a + sizeFun s b) (parentFun s a))).length
          = s.data.length
      rw [List.length_set]
      exact hlen1
    have hpar : ∀ j, parentFun s' j = if j = b then a else parentFun s j := by
      intro j
      rw [hsdef, parentFun_set ha1]
      by_cases hja : j = a
      · subst hja
        rw [if_pos rfl, if_neg hab]
      · rw [if_neg hja, hs1def, parentFun_set hb]
        by_cases hjb : j = b
        · rw [if_pos hjb, if_pos hjb, hra]
        · rw [if_neg hjb, if_neg hjb]
    have hs1b : InBounds s1 := InBounds_set_parent hs.1 hb hpa _
    have hpa1 : parentFun s a < s1.data.length := by omega
    have hInB : InBounds s' := InBounds_set_parent hs1b ha1 hpa1 _
    obtain ⟨hWF', hroots⟩ := WF_attach hs hra hrb (Ne.symm hab) hb hpar hlen hInB
    refine ⟨s', hok, hWF', rfl, hlen, ?_, fun hc => absurd hlt hc⟩
    intro _
    refine ⟨?_, ?_, hroots⟩
    · rw [hpar b, if_pos rfl]
    · rw [hsdef, sizeFun_set ha1, if_pos rfl]
  · -- other.size <= value.size: a is re-parented under b
    set s1 : DisjointHashSet T :=
      { s with data := s.data.set a (Node.mk (sizeFun s a) (parentFun s b)) }
      with hs1def
    set s' : DisjointHashSet T :=
      { s1 with data := s1.data.set b (Node.mk (sizeFun s b + sizeFun s a) (parentFun s b)) }
      with hsdef
    have hlen1 : s1.data.length = s.data.length := by
      rw [hs1def]
      exact List.length_set ..
    have hb1 : b < s1.data.length := by omega
    have ha1 : a < s1.data.length := by omega
    have hlen : s'.data.length = s.data.length := by
      rw [hsdef]
      show (s1.data.set b (Node.mk (sizeFun s b + sizeFun s a) (parentFun s b))).length
          = s.data.length
      rw [List.length_set]
      exact hlen1
    have hpar : ∀ j, parentFun s' j = if j = a then b else parentFun s j := by
      intro j
      rw [hsdef, parentFun_set hb1]
      by_cases hjb : j = b
      · subst hjb
        rw [if_pos rfl, if_neg (Ne.symm hab)]
      · rw [if_neg hjb, hs1def, parentFun_set ha]
        by_cases hja : j = a
        · rw [if_pos hja, if_pos hja, hrb]
        · rw [if_neg hja, if_neg hja]
    have hs1b : InBounds s1 := InBounds_set_parent hs.1 ha hpb _
    have hpb1 : parentFun s b < s1.data.length := by omega
    have hInB : InBounds s' := InBounds_set_parent hs1b hb1 hpb1 _
    obtain ⟨hWF', hroots⟩ := WF_attach hs hrb hra hab ha hpar hlen hInB
    refine ⟨s', hok, hWF', rfl, hlen, fun hc => absurd hc hlt, ?_⟩
    intro _
    refine ⟨?_, ?_, hroots⟩
    · rw [hpar a, if_pos rfl]
    · rw [hsdef, sizeFun_set hb1, if_pos rfl]

theorem rootOf_lt {s : DisjointHashSet T} (hs : InBounds s) {i : Nat}
    (hi : i < s.data.length) : rootOf s i < s.data.length := by
  have horb : ∀ k, (parentFun s)^[k] i < s.data.length := by
    intro k
    induction k with
    | zero => simpa using hi
    | succ k ih =>
      rw [Function.iterate_succ_apply']
      exact hs.parent_lt ih
  exact horb _

/-- `find_or_insert` on a value that is already present: the structure's map is
unchanged and the returned identifier is the value's root. -/
theorem find_or_insert_present {s : DisjointHashSet T} (hs : WF s) {v : T} {id : Nat}
    (hm : mapGet s.map v = some id) :
    ∃ s', s.find_or_insert v = .ok (rootOf s id, s') ∧ WF s' ∧
      s'.map = s.map ∧ (∀ x, rootOf s' x = rootOf s x) ∧
      (∀ x, parentFun s x = x → parentFun s' x = x) ∧
      s'.data.length = s.data.length := by
  obtain ⟨s', hok, hWF', hroots, hpres, hlen, hmap, hsz⟩ :=
    compress_path_wf hs (hs.1.map_lt hm)
  refine ⟨s', ?_, hWF', hmap, hroots, hpres, hlen⟩
  unfold find_or_insert
  rw [insert_inner_present hm]
  exact hok

/-- `union` on a well-formed state succeeds, keeps the state well formed, and
afterwards both values are present and share one root. -/
theorem union_wf {s : DisjointHashSet T} (hs : WF s) (a b : T) :
    ∃ s', s.union a b = .ok s' ∧ WF s' ∧
      optRoot s' a = optRoot s' b ∧ (optRoot s' a).isSome := by
  obtain ⟨ia, ra, sA, hokA, hWFA, hmva, hraS, hraA, hfixA, hmapA, hrootsA, hpresA, hlenA, hiaA⟩ :=
    find_or_insert_wf hs a
  obtain ⟨ib, rb, sB, hokB, hWFB, hmvb, hrbS, hrbB, hfixB, hmapB, hrootsB, hpresB, hlenB, hibB⟩ :=
    find_or_insert_wf hWFA b
  have hraB : ra < sB.data.length := by
    have h1 : ra < sA.data.length := by
      rw [hraA]
      exact rootOf_lt hWFA.1 hiaA
    omega
  have hrbB' : rb < sB.data.length := by
    rw [hrbB]
    exact rootOf_lt hWFB.1 hibB
  have hfixra : parentFun sB ra = ra := hpresB ra hfixA
  have hrootBia : rootOf sB ia = ra := by rw [hrootsB ia, ← hraA]
  have hrootBib : rootOf sB ib = rb := hrbB.symm
  have hmain : ∃ s', sB.union_inner ra rb = .ok s' ∧ WF s' ∧ s'.map = sB.map ∧
      rootOf s' ia = rootOf s' ib := by
    by_cases hrr : ra = rb
    · subst hrr
      exact ⟨sB, union_inner_self hraB, hWFB, rfl, by rw [hrootBia, hrootBib]⟩
    · obtain ⟨s', hokU, hWF', hmapU, hlenU, hlt, hge⟩ :=
        union_inner_roots_wf hWFB hraB hrbB' hfixra hfixB hrr
      by_cases hsz : sizeFun sB ra < sizeFun sB rb
      · obtain ⟨hp, hszs, hroots'⟩ := hlt hsz
        refine ⟨s', hokU, hWF', hmapU, ?_⟩
        rw [hroots' ia, hroots' ib, hrootBia, hrootBib, if_neg hrr, if_pos rfl]
      · obtain ⟨hp, hszs, hroots'⟩ := hge hsz
        refine ⟨s', hokU, hWF', hmapU, ?_⟩
        rw [hroots' ia, hroots' ib, hrootBia, hrootBib, if_pos rfl,
          if_neg (fun hc => hrr hc.symm)]
  obtain ⟨s', hokU, hWF', hmapU, hEq⟩ := hmain
  have hmA' : mapGet s'.map b = some ib := by
    rw [hmapU]
    exact hmvb
  have hmB' : mapGet s'.map a = some (if a = b then ib else ia) := by
    rw [hmapU, hmapB a]
    by_cases hab : a = b
    · rw [if_pos hab, if_pos hab]
    · rw [if_neg hab, if_neg hab]
      exact hmva
  refine ⟨s', ?_, hWF', ?_, ?_⟩
  · unfold union
    simp only [hokA, ok_bind, hokB, hokU]
  · unfold optRoot
    rw [hmB', hmA']
    simp only [Option.map_some']
    by_cases hab : a = b
    · rw [if_pos hab]
    · rw [if_neg hab, hEq]
  · unfold optRoot
    rw [hmB']
    rfl

/-- `union` applied to two present values that already share a root is a no-op
on the class structure: the map and all roots are unchanged. -/
theorem union_present_same_root {s : DisjointHashSet T} (hs : WF s) {a b : T}
    {ia ib : Nat} (hma : mapGet s.map a = some ia) (hmb : mapGet s.map b = some ib)
    (hr : rootOf s ia = rootOf s ib) :
    ∃ s', s.union a b = .ok s' ∧ WF s' ∧ s'.map = s.map ∧
      (∀ x, rootOf s' x = rootOf s x) ∧ s'.data.length = s.data.length := by
  obtain ⟨sA, hokA, hWFA, hmapA, hrootsA, hpresA, hlenA⟩ := find_or_insert_present hs hma
  have hmbA : mapGet sA.map b = some ib := by
    rw [hmapA]
    exact hmb
  obtain ⟨sB, hokB, hWFB, hmapB, hrootsB, hpresB, hlenB⟩ := find_or_insert_present hWFA hmbA
  have hrbeq : rootOf sA ib = rootOf s ib := hrootsA ib
  have hreq : rootOf s ia = rootOf sA ib := by
    rw [hrbeq, hr]
  have hlt : rootOf s ia < sB.data.length := by
    have h1 : rootOf s ia < s.data.length := rootOf_lt hs.1 (hs.1.map_lt hma)
    omega
  refine ⟨sB, ?_, hWFB, by rw [hmapB, hmapA], ?_, by omega⟩
  · unfold union
    have hself : sB.union_inner (rootOf s ia) (rootOf sA ib) = .ok sB := by
      rw [← hreq]
      exact union_inner_self hlt
    simp only [hokA, ok_bind, hokB, hself]
  · intro x
    rw [hrootsB x, hrootsA x]

end DisjointHashSet

/-- Every state reachable by `insert`/`union` alone is a well-formed forest. -/
theorem ReachIU_WF {T : Type} [DecidableEq T] {s : DisjointHashSet T}
    (h : ReachIU s) : DisjointHashSet.WF s := by
  induction h with
  | base =>
    refine ⟨⟨?_, ?_⟩, ?_⟩
    · intro p hp
      exact absurd hp (List.not_mem_nil p)
    · intro nd hnd
      exact absurd hnd (List.not_mem_nil nd)
    · intro i hi
      exact absurd hi (Nat.not_lt_zero i)
  | step_insert v hprev ih =>
    rename_i t
    obtain ⟨id, s', he, hWF', _⟩ := DisjointHashSet.insert_inner_wf ih v
    have h2 : (t.insert v).2 = s' := by
      unfold DisjointHashSet.insert
      rw [he]
    rw [h2]
    exact hWF'
  | step_union a b hprev hu ih =>
    rename_i t t'
    obtain ⟨s'', hok, hWF'', _⟩ := DisjointHashSet.union_wf ih a b
    rw [hu] at hok
    injection hok with h2
    rw [h2]
    exact hWF''

theorem beq_option_comm (x y : Option Nat) : (x == y) = (y == x) := by
  by_cases h : x = y
  · rw [h]
  · have h1 : (x == y) = false := beq_eq_false_iff_ne.mpr h
    have h2 : (y == x) = false := beq_eq_false_iff_ne.mpr (Ne.symm h)
    rw [h1, h2]

/-- **C7**: after every sequence of `insert` and `union` calls starting from
`new`, `connected` is an equivalence relation on values: `connected a a`
returns `true`, `connected a b` and `connected b a` return the same boolean,
and `connected a b = true` together with `connected b c = true` (queried in
sequence on the evolving structure) imply `connected a c = true`. -/
theorem C7_connected_equivalence {T : Type} [DecidableEq T] {s : DisjointHashSet T}
    (hs : ReachIU s) :
    (∀ a : T, ∃ s₁, s.connected a a = .ok (true, s₁)) ∧
    (∀ (a b : T) (r₁ r₂ : Bool) (s₁ s₂ : DisjointHashSet T),
      s.connected a b = .ok (r₁, s₁) → s.connected b a = .ok (r₂, s₂) → r₁ = r₂) ∧
    (∀ (a b c : T) (s₁ s₂ : DisjointHashSet T),
      s.connected a b = .ok (true, s₁) → s₁.connected b c = .ok (true, s₂) →
      ∃ s₃, s₂.connected a c = .ok (true, s₃)) := by
  have hWF := ReachIU_WF hs
  refine ⟨?_, ?_, ?_⟩
  · intro a
    obtain ⟨s₁, hok, _⟩ := DisjointHashSet.connected_wf hWF a a
    refine ⟨s₁, ?_⟩
    rw [hok, beq_self_eq_true]
  · intro a b r₁ r₂ s₁ s₂ h1 h2
    obtain ⟨t₁, hok1, _⟩ := DisjointHashSet.connected_wf hWF a b
    obtain ⟨t₂, hok2, _⟩ := DisjointHashSet.connected_wf hWF b a
    rw [h1] at hok1
    rw [h2] at hok2
    injection hok1 with hp1
    injection hok2 with hp2
    have hr1 : r₁ = (DisjointHashSet.optRoot s a == DisjointHashSet.optRoot s b) :=
      congrArg Prod.fst hp1
    have hr2 : r₂ = (DisjointHashSet.optRoot s b == DisjointHashSet.optRoot s a) :=
      congrArg Prod.fst hp2
    rw [hr1, hr2, beq_option_comm]
  · intro a b c s₁ s₂ h1 h2
    obtain ⟨t₁, hok1, hWF1, hmap1, hroots1, hlen1⟩ := DisjointHashSet.connected_wf hWF a b
    rw [h1] at hok1
    injection hok1 with hp1
    have hs1 : s₁ = t₁ := congrArg Prod.snd hp1
    have hab : DisjointHashSet.optRoot s a = DisjointHashSet.optRoot s b :=
      eq_of_beq (congrArg Prod.fst hp1).symm
    subst hs1
    have hopt1 : ∀ w, DisjointHashSet.optRoot s₁ w = DisjointHashSet.optRoot s w := by
      intro w
      unfold DisjointHashSet.optRoot
      rw [hmap1]
      cases hm : mapGet s.map w with
      | none => rfl
      | some i =>
        simp only [Option.map_some']
        rw [hroots1 i]
    obtain ⟨t₂, hok2, hWF2, hmap2, hroots2, hlen2⟩ := DisjointHashSet.connected_wf hWF1 b c
    rw [h2] at hok2
    injection hok2 with hp2
    have hs2 : s₂ = t₂ := congrArg Prod.snd hp2
    have hbc : DisjointHashSet.optRoot s₁ b = DisjointHashSet.optRoot s₁ c :=
      eq_of_beq (congrArg Prod.fst hp2).symm
    subst hs2
    have hopt2 : ∀ w, DisjointHashSet.optRoot s₂ w = DisjointHashSet.optRoot s₁ w := by
      intro w
      unfold DisjointHashSet.optRoot
      rw [hmap2]
      cases hm : mapGet s₁.map w with
      | none => rfl
      | some i =>
        simp only [Option.map_some']
        rw [hroots2 i]
    obtain ⟨t₃, hok3, _⟩ := DisjointHashSet.connected_wf hWF2 a c
    refine ⟨t₃, ?_⟩
    have hac : DisjointHashSet.optRoot s₂ a = DisjointHashSet.optRoot s₂ c := by
      rw [hopt2 a, hopt2 c]
      rw [hopt1 b, hopt1 c] at hbc
      rw [hopt1 a, hopt1 c, hab, hbc]
    rw [hok3, hac, beq_self_eq_true]

theorem C7_witness :
    ∃ s₁, (DisjointHashSet.new Nat).connected 0 0 = .ok (true, s₁) :=
  (C7_connected_equivalence ReachIU.base).1 0

/-- **C8**: on any well-formed structure, `union a b` succeeds, `connected a b`
then returns `true`, and repeating `union a b` changes neither the map (class
membership of values) nor any value's root (the connectivity relation). -/
theorem C8_union_connected_idempotent {T : Type} [DecidableEq T]
    {s : DisjointHashSet T} (hs : DisjointHashSet.WF s) (a b : T) :
    ∃ s₁, s.union a b = .ok s₁ ∧
      (∃ s₂, s₁.connected a b = .ok (true, s₂)) ∧
      (∃ s₃, s₁.union a b = .ok s₃ ∧ s₃.map = s₁.map ∧
        ∀ w : T, DisjointHashSet.optRoot s₃ w = DisjointHashSet.optRoot s₁ w) := by
  obtain ⟨s₁, hok, hWF1, heq, hsome⟩ := DisjointHashSet.union_wf hs a b
  cases hma : mapGet s₁.map a with
  | none =>
    unfold DisjointHashSet.optRoot at hsome
    rw [hma] at hsome
    simp at hsome
  | some ia =>
    cases hmb : mapGet s₁.map b with
    | none =>
      unfold DisjointHashSet.optRoot at heq
      rw [hma, hmb] at heq
      simp at heq
    | some ib =>
      have hroots_eq : DisjointHashSet.rootOf s₁ ia = DisjointHashSet.rootOf s₁ ib := by
        unfold DisjointHashSet.optRoot at heq
        rw [hma, hmb] at heq
        simp only [Option.map_some'] at heq
        injection heq
      refine ⟨s₁, hok, ?_, ?_⟩
      · obtain ⟨s₂, hokc, _⟩ := DisjointHashSet.connected_wf hWF1 a b
        refine ⟨s₂, ?_⟩
        rw [hokc, heq, beq_self_eq_true]
      · obtain ⟨s₃, hoku, hWF3, hmap3, hroots3, hlen3⟩ :=
          DisjointHashSet.union_present_same_root hWF1 hma hmb hroots_eq
        refine ⟨s₃, hoku, hmap3, ?_⟩
        intro w
        unfold DisjointHashSet.optRoot
        rw [hmap3]
        cases hm : mapGet s₁.map w with
        | none => rfl
        | some i =>
          simp only [Option.map_some']
          rw [hroots3 i]

theorem C8_witness :
    ∃ s₁, (DisjointHashSet.new Nat).union 0 1 = .ok s₁ ∧
      (∃ s₂, s₁.connected 0 1 = .ok (true, s₂)) ∧
      (∃ s₃, s₁.union 0 1 = .ok s₃ ∧ s₃.map = s₁.map ∧
        ∀ w : Nat, DisjointHashSet.optRoot s₃ w = DisjointHashSet.optRoot s₁ w) :=
  C8_union_connected_idempotent (by decide) 0 1

namespace DisjointHashSet

variable {T : Type} [DecidableEq T]

theorem modify_node_map {s s2 : DisjointHashSet T} {id : Nat} {f : Node → Node}
    (h : s.modify_node id f = .ok s2) : s2.map = s.map := by
  unfold modify_node at h
  cases hg : s.data[id]? with
  | none =>
    rw [hg] at h
    exact absurd h (by simp)
  | some nd =>
    rw [hg] at h
    injection h with h2
    rw [← h2]

/-- The path-halving loop touches only `data`: whenever it returns normally
the map is unchanged (no in-bounds hypothesis needed). -/
theorem compress_path_fuel_map :
    ∀ (fuel : Nat) (s : DisjointHashSet T) (id r : Nat) (s' : DisjointHashSet T),
      compress_path_fuel fuel s id = .ok (r, s') → s'.map = s.map := by
  intro fuel
  induction fuel with
  | zero =>
    intro s id r s' h
    exact absurd h (by simp [compress_path_fuel])
  | succ fuel ih =>
    intro s id r s' h
    rw [compress_path_fuel] at h
    cases hg : s.get id with
    | error e =>
      rw [hg, error_bind] at h
      exact absurd h (by simp)
    | ok node =>
      rw [hg, ok_bind] at h
      by_cases hp : node.parent = id
      · rw [if_pos hp] at h
        injection h with hpair
        cases hpair
        rfl
      · rw [if_neg hp] at h
        cases hg2 : s.get node.parent with
        | error e =>
          rw [hg2, error_bind] at h
          exact absurd h (by simp)
        | ok pnode =>
          rw [hg2, ok_bind] at h
          cases hm : s.modify_node id (fun n => { n with parent := pnode.parent }) with
          | error e =>
            rw [hm, error_bind] at h
            exact absurd h (by simp)
          | ok s2 =>
            rw [hm, ok_bind] at h
            rw [ih s2 node.parent r s' h, modify_node_map hm]

/-- `find` never touches the map, and its result is populated exactly when the
queried value is present (no well-formedness hypothesis needed). -/
theorem find_ok_map {s s' : DisjointHashSet T} {v : T} {r : Option Nat}
    (h : s.find v = .ok (r, s')) :
    s'.map = s.map ∧ r.isSome = (mapGet s.map v).isSome := by
  unfold find at h
  cases hm : mapGet s.map v with
  | none =>
    rw [hm] at h
    injection h with hp
    cases hp
    exact ⟨rfl, rfl⟩
  | some id =>
    simp only [hm] at h
    cases hc : s.compress_path id with
    | error e =>
      simp only [hc, error_bind] at h
      exact absurd h (by simp)
    | ok p =>
      obtain ⟨r2, s2⟩ := p
      simp only [hc, ok_bind] at h
      have hmap := compress_path_fuel_map (op_fuel s) s id r2 s2 hc
      injection h with hp
      cases hp
      exact ⟨hmap, rfl⟩

end DisjointHashSet

/-- **C4** (amended): when `union` merges two distinct classes (the two values
resolve via `find_or_insert` to distinct roots `ra`, `rb`), the size comparison
`value.size < other.size` attaches the *larger* root under the *smaller* one:
if `size ra < size rb` then `rb` is re-parented under `ra` and `ra`'s size
becomes the sum, otherwise (larger-or-equal first root, including ties) `ra`
is re-parented under `rb` and `rb`'s size becomes the sum. -/
theorem C4_union_by_size {T : Type} [DecidableEq T] {s s₁ s₂ : DisjointHashSet T}
    {a b : T} {ra rb : Nat} (hs : DisjointHashSet.WF s)
    (h1 : s.find_or_insert a = .ok (ra, s₁))
    (h2 : s₁.find_or_insert b = .ok (rb, s₂))
    (hne : ra ≠ rb) :
    ∃ s', s.union a b = .ok s' ∧
      (DisjointHashSet.sizeFun s₂ ra < DisjointHashSet.sizeFun s₂ rb →
        DisjointHashSet.parentFun s' rb = ra ∧
        DisjointHashSet.sizeFun s' ra =
          DisjointHashSet.sizeFun s₂ ra + DisjointHashSet.sizeFun s₂ rb) ∧
      (¬ DisjointHashSet.sizeFun s₂ ra < DisjointHashSet.sizeFun s₂ rb →
        DisjointHashSet.parentFun s' ra = rb ∧
        DisjointHashSet.sizeFun s' rb =
          DisjointHashSet.sizeFun s₂ rb + DisjointHashSet.sizeFun s₂ ra) := by
  obtain ⟨ia, ra', sA, hokA, hWFA, hmva, hraS, hraA, hfixA, hmapA, hrootsA, hpresA,
    hlenA, hiaA⟩ := DisjointHashSet.find_or_insert_wf hs a
  rw [h1] at hokA
  injection hokA with hpA
  cases hpA
  obtain ⟨ib, rb', sB, hokB, hWFB, hmvb, hrbS, hrbB, hfixB, hmapB, hrootsB, hpresB,
    hlenB, hibB⟩ := DisjointHashSet.find_or_insert_wf hWFA b
  rw [h2] at hokB
  injection hokB with hpB
  cases hpB
  have hraB : ra < s₂.data.length := by
    have hx : ra < s₁.data.length := by
      rw [hraA]
      exact DisjointHashSet.rootOf_lt hWFA.1 hiaA
    omega
  have hrbB' : rb < s₂.data.length := by
    rw [hrbB]
    exact DisjointHashSet.rootOf_lt hWFB.1 hibB
  have hfixra : DisjointHashSet.parentFun s₂ ra = ra := hpresB ra hfixA
  obtain ⟨s', hokU, hWF', hmapU, hlenU, hlt, hge⟩ :=
    DisjointHashSet.union_inner_roots_wf hWFB hraB hrbB' hfixra hfixB hne
  refine ⟨s', ?_, ?_, ?_⟩
  · unfold DisjointHashSet.union
    simp only [h1, DisjointHashSet.ok_bind, h2, hokU]
  · intro hsz
    obtain ⟨hp', hsz', _⟩ := hlt hsz
    exact ⟨hp', hsz'⟩
  · intro hsz
    obtain ⟨hp', hsz', _⟩ := hge hsz
    exact ⟨hp', hsz'⟩

theorem C4_union_by_size_witness :
    ∃ s', (DisjointHashSet.with_values [0, 1] : DisjointHashSet Nat).union 0 1 = .ok s' ∧
      (DisjointHashSet.sizeFun (DisjointHashSet.with_values [0, 1]) 0 <
          DisjointHashSet.sizeFun (DisjointHashSet.with_values [0, 1]) 1 →
        DisjointHashSet.parentFun s' 1 = 0 ∧
        DisjointHashSet.sizeFun s' 0 =
          DisjointHashSet.sizeFun (DisjointHashSet.with_values [0, 1]) 0 +
            DisjointHashSet.sizeFun (DisjointHashSet.with_values [0, 1]) 1) ∧
      (¬ DisjointHashSet.sizeFun (DisjointHashSet.with_values [0, 1]) 0 <
          DisjointHashSet.sizeFun (DisjointHashSet.with_values [0, 1]) 1 →
        DisjointHashSet.parentFun s' 0 = 1 ∧
        DisjointHashSet.sizeFun s' 1 =
          DisjointHashSet.sizeFun (DisjointHashSet.with_values [0, 1]) 1 +
            DisjointHashSet.sizeFun (DisjointHashSet.with_values [0, 1]) 0) :=
  C4_union_by_size (by decide) (by rfl) (by rfl) (by decide)

/-- **C5** (amended): whenever `connected a b` returns normally it has not
modified the map (it inserts neither value), and if exactly one of the two
values is absent the result is `false` (when both are absent the two empty
`find` results compare equal, so the result is `true`, refuting the original
claim's "either absent" direction). -/
theorem C5_connected_absent {T : Type} [DecidableEq T]
    {s s' : DisjointHashSet T} {a b : T} {r : Bool}
    (h : s.connected a b = .ok (r, s')) :
    s'.map = s.map ∧
      ((mapGet s.map a).isSome ≠ (mapGet s.map b).isSome → r = false) := by
  unfold DisjointHashSet.connected at h
  cases h1 : s.find a with
  | error e =>
    rw [h1, DisjointHashSet.error_bind] at h
    exact absurd h (by simp)
  | ok p =>
    obtain ⟨fa, s₁⟩ := p
    simp only [h1, DisjointHashSet.ok_bind] at h
    cases h2 : s₁.find b with
    | error e =>
      simp only [h2, DisjointHashSet.error_bind] at h
      exact absurd h (by simp)
    | ok q =>
      obtain ⟨fb, s₂⟩ := q
      simp only [h2, DisjointHashSet.ok_bind] at h
      obtain ⟨hmap1, hsome1⟩ := DisjointHashSet.find_ok_map h1
      obtain ⟨hmap2, hsome2⟩ := DisjointHashSet.find_ok_map h2
      injection h with hp
      cases hp
      refine ⟨by rw [hmap2, hmap1], ?_⟩
      intro hne
      rw [hmap1] at hsome2
      have hfs : fa.isSome ≠ fb.isSome := by
        rw [hsome1, hsome2]
        exact hne
      cases fa with
      | none =>
        cases fb with
        | none => exact absurd rfl hfs
        | some y => rfl
      | some x =>
        cases fb with
        | none => rfl
        | some y => exact absurd rfl hfs

theorem C5_connected_absent_witness :
    (DisjointHashSet.with_values [0] : DisjointHashSet Nat).map =
        (DisjointHashSet.with_values [0] : DisjointHashSet Nat).map ∧
      ((mapGet (DisjointHashSet.with_values [0] : DisjointHashSet Nat).map 0).isSome ≠
          (mapGet (DisjointHashSet.with_values [0] : DisjointHashSet Nat).map 1).isSome →
        false = false) :=
  C5_connected_absent (by rfl)
